import Mathlib

/-!
# pretty-profile-readme: aggregation and rendering pipeline

A shallow embedding of `main.go` (the formatter `TextWithTab` / `GenProgressBar`,
the renderers `GenIssues` / `GenCommitsInfo` / `GenMostly` / `GenWakaTimeStats`, the
aggregation loops of `GenCommitsInfo` and `main`, and `GetFirstDateOfWeek`), followed
by theorems about it.

Conventions of the embedding:
* a Go `string` is its sequence of bytes (`len` is the number of bytes);
* a Go `int` is a Lean `Int`: the counters here are bounded by the length of the
  input lists, far below `2^63`, and the one subtraction on a value supplied by the
  caller (in `TextWithTab`) wraps around explicitly;
* a Go `float64` is an IEEE 754 binary64 value, see `F64`;
* a Go `map[string]int` is an association list with at most one entry per key;
* a `time.Time` is its Unix time in seconds, a `*time.Location` the function that
  gives the offset from UTC in force at an instant.
-/

namespace PrettyProfile

/-! ## Strings -/

/-- A Go string: a sequence of bytes. -/
abbrev GoString := List UInt8

/-- The Go string denoted by a string literal (its UTF-8 encoding). -/
def str (s : String) : GoString := s.toUTF8.data.toList

/-! ## float64 -/

/-- Values of Go's `float64`: NaN, the two infinities, and the finite values in
sign-magnitude form (so that both zeros exist). The finite values a program can
hold are those produced by `F64.round`; the operations below accept any
magnitude and round their result. -/
inductive F64 where
  | nan : F64
  | inf (neg : Bool) : F64
  | fin (neg : Bool) (mag : NNRat) : F64
  deriving DecidableEq

namespace F64

/-- Nearest natural number to a non-negative rational, ties to even. -/
def roundHalfEven (x : ℚ) : ℕ :=
  let f := ⌊x⌋₊
  let r := x - f
  if r < 1 / 2 then f else if 1 / 2 < r then f + 1 else if f % 2 = 0 then f else f + 1

/-- Exponent of the spacing of binary64 values around magnitude `x`: 52 below the
binade of `x` for normal numbers, `-1074` in the subnormal range. -/
def ulpExp (x : ℚ) : ℤ := max (Int.log 2 x) (-1022) - 52

/-- Round-to-nearest-even of a non-negative magnitude onto the binary64 grid
(with unbounded exponent above). -/
def roundMag (x : ℚ) : ℚ := (roundHalfEven (x / 2 ^ ulpExp x) : ℚ) * 2 ^ ulpExp x

/-- The binary64 value nearest to the magnitude `x` with sign `neg`; magnitudes that
round to `2^1024` or more overflow to infinity. -/
def round (neg : Bool) (x : ℚ) : F64 :=
  if (2 : ℚ) ^ 1024 ≤ roundMag x then inf neg else fin neg (roundMag x).toNNRat

/-- Conversion `float64(n)` of an integer. -/
def ofInt (n : Int) : F64 := round (decide (n < 0)) (n.natAbs : ℚ)

/-- Product `x * y` of two float64 values. -/
def mul : F64 → F64 → F64
  | fin s m, fin t k => round (xor s t) ((m : ℚ) * (k : ℚ))
  | fin s m, inf t => if m = 0 then nan else inf (xor s t)
  | inf s, fin t k => if k = 0 then nan else inf (xor s t)
  | inf s, inf t => inf (xor s t)
  | _, _ => nan

/-- Quotient `x / y` of two float64 values. -/
def div : F64 → F64 → F64
  | fin s m, fin t k =>
      if k = 0 then (if m = 0 then nan else inf (xor s t))
      else round (xor s t) ((m : ℚ) / (k : ℚ))
  | fin s _, inf t => fin (xor s t) 0
  | inf s, fin t _ => inf (xor s t)
  | _, _ => nan

/-- Conversion `int(x)` of a float64 to a 64-bit integer: the fraction is discarded
(truncation towards zero). When the truncated value is not representable, or `x`
is NaN or infinite, the Go specification leaves the result to the implementation;
`arch` is that implementation-dependent result. -/
def toInt (arch : F64 → Int) : F64 → Int
  | fin neg mag =>
      let t : Int := if neg then -⌊(mag : ℚ)⌋ else ⌊(mag : ℚ)⌋
      if -2 ^ 63 ≤ t ∧ t < 2 ^ 63 then t else arch (fin neg mag)
  | x => arch x

/-- The exact value of a finite float64 (zero for NaN and the infinities). -/
def toRat : F64 → ℚ
  | fin neg mag => if neg then -(mag : ℚ) else (mag : ℚ)
  | _ => 0

end F64

/-- The out-of-range result of `int(x)` on amd64: the instruction CVTTSD2SQ yields
the "integer indefinite" value `-2^63` for every invalid operand. -/
def amd64Conv : F64 → Int := fun _ => -2 ^ 63

/-! ## The formatter -/

/-- Reduction of an integer to the range of Go's 64-bit `int`: the result of an
arithmetic operation wraps around in two's complement. -/
def wrapInt64 (x : Int) : Int := (x + 2 ^ 63) % 2 ^ 64 - 2 ^ 63

/-- Embedding of `TextWithTab`; `maxTab` is an `int`, and the subtraction
`maxTab - len(text)/8` wraps around as Go's does. -/
def TextWithTab (text : GoString) (maxTab : Int) : GoString :=
  let text :=
    if text.length > 15 then
      (((text.take 15).set 12 '.'.toUInt8).set 13 '.'.toUInt8).set 14 '.'.toUInt8
    else text
  let maxTab := wrapInt64 (maxTab - ((text.length / 8 : ℕ) : Int))
  (List.range maxTab.toNat).foldl (fun tab _ => tab ++ str "\t") ([] ++ text)

/-- Embedding of `GenProgressBar`. -/
def GenProgressBar (arch : F64 → Int) (per : F64) : GoString :=
  let n := F64.toInt arch (F64.mul per (F64.ofInt 25))
  (List.range 25).foldl
    (fun block (i : ℕ) => if (i : Int) < n then block ++ str "#" else block ++ str "-") []

/-- The verb `%d` of `fmt.Sprintf` applied to an `int`. -/
def fmtInt (n : Int) : GoString := str (toString n)

/-- The verb `%.2f` of `fmt.Sprintf` applied to a `float64`: the exact value rounded
to two decimals (ties to even), `NaN` for a NaN, `+Inf` and `-Inf` for the infinities. -/
def fmtFloat2 : F64 → GoString
  | F64.nan => str "NaN"
  | F64.inf neg => if neg then str "-Inf" else str "+Inf"
  | F64.fin neg mag =>
      let r := F64.roundHalfEven ((mag : ℚ) * 100)
      (if neg then str "-" else []) ++ str (toString (r / 100)) ++ str "."
        ++ str (toString (r % 100 / 10)) ++ str (toString (r % 10))

/-! ## Maps, sorting, time -/

/-- A Go `map[string]int`, as an association list. -/
abbrev GoMap := List (GoString × Int)

/-- The lookup `m[k]`: the zero value when `k` is absent. -/
def mapGet : GoMap → GoString → Int
  | [], _ => 0
  | (k', v) :: rest, k => if k' = k then v else mapGet rest k

/-- The statement `m[k]++`: an absent key is inserted with `0 + 1`. -/
def mapIncr : GoMap → GoString → GoMap
  | [], k => [(k, 1)]
  | (k', v) :: rest, k => if k' = k then (k', v + 1) :: rest else (k', v) :: mapIncr rest k

/-- Go's `<` on strings: byte-wise lexicographic order. -/
def strLess : GoString → GoString → Bool
  | [], [] => false
  | [], _ :: _ => true
  | _ :: _, [] => false
  | a :: as, b :: bs =>
      if a.toNat < b.toNat then true
      else if b.toNat < a.toNat then false
      else strLess as bs

/-- The order `a ≤ b` that `sort.Strings` establishes: not `b < a`. -/
def strLe (a b : GoString) : Prop := strLess b a = false

instance : DecidableRel strLe := fun a b => inferInstanceAs (Decidable (strLess b a = false))

/-- The library call `sort.Strings`: the list rearranged in increasing order. -/
def sortStrings (l : List GoString) : List GoString := l.insertionSort strLe

/-- A `*time.Location`: the offset from UTC, in seconds, in force at a Unix instant. -/
abbrev Location := Int → Int

/-- The method `Hour` of the instant `t` (Unix seconds) taken `In` the location. -/
def Hour (loc : Location) (t : Int) : Int := (t + loc t) % 86400 / 3600

/-- The method `Weekday` of the instant `t` taken `In` the location, `0` being Sunday
(the first of January 1970 was a Thursday). -/
def Weekday (loc : Location) (t : Int) : Int := ((t + loc t) / 86400 + 4) % 7

/-- The table `longDayNames` of package `time`. -/
def longDayNames : List GoString :=
  [str "Sunday", str "Monday", str "Tuesday", str "Wednesday", str "Thursday", str "Friday",
   str "Saturday"]

/-- The method `String` of a `time.Weekday`. -/
def WeekdayString (d : Int) : GoString :=
  if 0 ≤ d ∧ d ≤ 6 then longDayNames.getD d.toNat []
  else str "%!Weekday(" ++ fmtInt d ++ str ")"

/-! ## Input data -/

/-- One `RepositoryCommitInfo`: the repository name and the `CommittedDate` (Unix
seconds) of every edge of `Repository.Ref.Target.Commit.History`. -/
structure RepositoryCommitInfo where
  Name : GoString
  History : List Int

/-- One node of `Repositories.Edges`, with the fields the loop of `main` reads. -/
structure RepositoryNode where
  Name : GoString
  PrimaryLanguageName : GoString
  IsPrivate : Bool

/-- One node of `Issues.Edges`: the title and the URL as printed by `URL.String()`. -/
structure IssueNode where
  Title : GoString
  URL : GoString

/-! ## The issue list -/

/-- Embedding of `GenIssues` (the debugging `Println` is left out). -/
def GenIssues (issues : List IssueNode) : GoString :=
  issues.foldl
    (fun content node =>
      ((str "[" ++ node.Title ++ str "](" ++ node.URL ++ str ")") ++ str "\n\n") ++ content)
    ([] ++ str "\n")

/-! ## The language loop of `main` -/

/-- The variables of `main` that its loop over the repositories updates. -/
structure LangStats where
  langMap : GoMap
  mostlyLangName : GoString
  mostlyLangNum : Int
  nPrivate : Int
  nPublic : Int

/-- The variables of `main` before the loop. -/
def LangStats.init : LangStats :=
  { langMap := [], mostlyLangName := [], mostlyLangNum := 0, nPrivate := 0, nPublic := 0 }

/-- One iteration of the loop of `main` (the commit-history request aside). -/
def langStep (st : LangStats) (node : RepositoryNode) : LangStats :=
  let langName := if node.PrimaryLanguageName = [] then str "Other" else node.PrimaryLanguageName
  let langMap := mapIncr st.langMap langName
  let upd := decide (mapGet langMap langName > st.mostlyLangNum)
  { langMap := langMap
    mostlyLangName := if upd then langName else st.mostlyLangName
    mostlyLangNum := if upd then mapGet langMap langName else st.mostlyLangNum
    nPrivate := if node.IsPrivate then st.nPrivate + 1 else st.nPrivate
    nPublic := if node.IsPrivate then st.nPublic else st.nPublic + 1 }

/-- The loop of `main` over `Repositories.Edges`. -/
def langLoop (edges : List RepositoryNode) : LangStats := edges.foldl langStep LangStats.init

/-! ## The commit report -/

/-- The local variables of `GenCommitsInfo` that its aggregation loop updates. -/
structure CommitStats where
  weekdayMap : GoMap
  timeMap : GoMap
  repoMap : GoMap
  repoList : List GoString
  total : Int
  maxDay : GoString
  maxRepo : GoString

/-- The slice `weekdayList`. -/
def weekdayList : List GoString :=
  [str "Monday", str "Tuesday", str "Wednesday", str "Thursday", str "Friday", str "Saturday",
   str "Sunday"]

/-- The slice `timeList`. -/
def timeList : List GoString := [str "Morning", str "Daytime", str "Evening", str "Night"]

/-- The local variables of `GenCommitsInfo` before the loop. -/
def CommitStats.init : CommitStats :=
  { weekdayMap := [(str "Monday", 0), (str "Tuesday", 0), (str "Wednesday", 0),
      (str "Thursday", 0), (str "Friday", 0), (str "Saturday", 0), (str "Sunday", 0)]
    timeMap := [(str "Morning", 0), (str "Daytime", 0), (str "Evening", 0), (str "Night", 0)]
    repoMap := []
    repoList := []
    total := 0
    maxDay := []
    maxRepo := [] }

/-- The `switch` on the hour `t` in the loop of `GenCommitsInfo` (no default case). -/
def timeSwitch (timeMap : GoMap) (t : Int) : GoMap :=
  if t < 6 then mapIncr timeMap (str "Night")
  else if t < 12 then mapIncr timeMap (str "Morning")
  else if t < 18 then mapIncr timeMap (str "Daytime")
  else if t < 24 then mapIncr timeMap (str "Evening")
  else timeMap

/-- The body of the inner loop of `GenCommitsInfo`, for one commit date `d`. -/
def commitStep (loc : Location) (repoName : GoString) (st : CommitStats) (d : Int) :
    CommitStats :=
  let w := WeekdayString (Weekday loc d)
  let t := Hour loc d
  let timeMap := timeSwitch st.timeMap t
  let weekdayMap := mapIncr st.weekdayMap w
  let maxDay := if mapGet weekdayMap w > mapGet weekdayMap st.maxDay then w else st.maxDay
  let repoMap := mapIncr st.repoMap repoName
  let maxRepo :=
    if mapGet repoMap repoName > mapGet repoMap st.maxRepo then repoName else st.maxRepo
  { weekdayMap := weekdayMap
    timeMap := timeMap
    repoMap := repoMap
    repoList := st.repoList
    total := st.total + 1
    maxDay := maxDay
    maxRepo := maxRepo }

/-- The body of the outer loop of `GenCommitsInfo`, for one repository. -/
def repoStep (loc : Location) (st : CommitStats) (rci : RepositoryCommitInfo) : CommitStats :=
  rci.History.foldl (commitStep loc rci.Name)
    { st with repoList := st.repoList ++ [rci.Name] }

/-- The aggregation loop of `GenCommitsInfo`. -/
def aggregate (loc : Location) (infos : List RepositoryCommitInfo) : CommitStats :=
  infos.foldl (repoStep loc) CommitStats.init

/-- One report line: `Sprintf("%s%s%s\t%.2f%%\n", TextWithTab(label, 2),
TextWithTab(Sprintf("%d commits", count), 2), GenProgressBar(per), per*100)` with
`per := float64(count) / float64(total)`. -/
def commitLine (arch : F64 → Int) (label : GoString) (count total : Int) : GoString :=
  let per := F64.div (F64.ofInt count) (F64.ofInt total)
  TextWithTab label 2 ++ TextWithTab (fmtInt count ++ str " commits") 2
    ++ GenProgressBar arch per ++ str "\t" ++ fmtFloat2 (F64.mul per (F64.ofInt 100))
    ++ str "%\n"

/-- The loop of `GenCommitsInfo` over `timeList`. -/
def timeLoop (arch : F64 → Int) (st : CommitStats) (content : GoString) : GoString :=
  timeList.foldl (fun content i => content ++ commitLine arch i (mapGet st.timeMap i) st.total)
    content

/-- The loop of `GenCommitsInfo` over `weekdayList`. -/
def weekdayLoop (arch : F64 → Int) (st : CommitStats) (content : GoString) : GoString :=
  weekdayList.foldl
    (fun content i => content ++ commitLine arch i (mapGet st.weekdayMap i) st.total) content

/-- The loop of `GenCommitsInfo` over the sorted `repoList`. -/
def repoLoop (arch : F64 → Int) (st : CommitStats) (content : GoString) : GoString :=
  (sortStrings st.repoList).foldl
    (fun content repo =>
      if mapGet st.repoMap repo = 0 then content
      else content ++ commitLine arch repo (mapGet st.repoMap repo) st.total)
    content

/-- Embedding of `GenCommitsInfo`. -/
def GenCommitsInfo (arch : F64 → Int) (loc : Location) (infos : List RepositoryCommitInfo) :
    GoString :=
  let st := aggregate loc infos
  let content : GoString := []
  let content := content ++ str "\n"
  let content := content ++ str "**I'm an Early 🐤** \n"
  let content := content ++ str "```text\n"
  let content := timeLoop arch st content
  let content := content ++ str "```\n"
  let content := content ++ str "\n"
  let content := content ++ (str "**📅 I'm Most Productive on " ++ st.maxDay ++ str "**\n")
  let content := content ++ str "```text\n"
  let content := weekdayLoop arch st content
  let content := content ++ str "```\n"
  let content := content ++ str "\n"
  let content := content ++ (str "**📽 I'm Most Contribute to " ++ st.maxRepo ++ str "**\n")
  let content := content ++ str "```text\n"
  let content := repoLoop arch st content
  let content := content ++ str "```\n"
  let content := content ++ str "\n"
  content

/-! ## The start of the week -/

/-- The call `time.Date(y, m, d, 0, 0, secs, 0, loc)`, the civil date `y-m-d` being given
by its day number `day` (days since the first of January 1970): the civil time is
first read as if it were UTC, and the offset of the location at the instant so
corrected is subtracted, as the library does away from a zone transition. -/
def DateIn (loc : Location) (day secs : Int) : Int :=
  let unix := day * 86400 + secs
  unix - loc (unix - loc unix)

/-- The method `AddDate(0, 0, days)`: the civil date and clock of `t` in the location,
with `days` added to the day, handed to `time.Date`. -/
def AddDate (loc : Location) (t days : Int) : Int :=
  DateIn loc ((t + loc t) / 86400 + days) ((t + loc t) % 86400)

/-- The day offset computed by `GetFirstDateOfWeek` from `now.Weekday()`, with
`time.Monday = 1`. -/
def weekOffset (weekday : Int) : Int :=
  let offset := 1 - weekday
  if offset > 0 then -6 else offset

/-- Embedding of `GetFirstDateOfWeek`: `now` is the instant `time.Now()`, whose weekday,
year, month and day are read in `localLoc` (the location `time.Local`), and the date is
rebuilt at `00:00:00` in `timeLocation`. -/
def GetFirstDateOfWeek (localLoc timeLocation : Location) (now : Int) : Int :=
  let offset := weekOffset (Weekday localLoc now)
  AddDate timeLocation (DateIn timeLocation ((now + localLoc now) / 86400) 0) offset

/-! ## The language report -/

/-- Embedding of `GenMostly`; `TotalCount` is `Repositories.TotalCount`. The keys of the
map are collected in the unspecified order of `range` and then sorted. -/
def GenMostly (arch : F64 → Int) (TotalCount : Int) (langMap : GoMap)
    (mostlyLangName : GoString) : GoString :=
  let content : GoString := []
  let totalRepo := F64.ofInt TotalCount
  let content := content ++ str "\n"
  let content := content ++ (str "**❤ I Mostly Code in " ++ mostlyLangName ++ str "**\n")
  let content := content ++ str "\n"
  let content := content ++ str "```text\n"
  let langList := sortStrings (langMap.map Prod.fst)
  let content := langList.foldl
    (fun content langName =>
      let repoNum := mapGet langMap langName
      let per := F64.div (F64.ofInt repoNum) totalRepo
      content ++ (TextWithTab langName 2 ++ TextWithTab (fmtInt repoNum ++ str " repos") 2
        ++ GenProgressBar arch per ++ str "\t" ++ fmtFloat2 (F64.mul per (F64.ofInt 100))
        ++ str "%\n"))
    content
  let content := content ++ str "```\n"
  content

/-! ## The WakaTime report -/

/-- One entry of `WakaTimeStats.Data.Projects`, with the fields the renderer reads. -/
structure WakaProject where
  Name : GoString
  Text : GoString
  Percent : F64

/-- Embedding of `GenWakaTimeStats`. -/
def GenWakaTimeStats (arch : F64 → Int) (projects : List WakaProject) : GoString :=
  let content : GoString := []
  let content := content ++ str "\n"
  let content := content ++ str "**📊 This Week I Spent My Time On**\n"
  let content := content ++ str "```text\n"
  let content := projects.foldl
    (fun content project =>
      if project.Name = str "Unknown Project" then content
      else content ++ (TextWithTab project.Name 2 ++ TextWithTab project.Text 2
        ++ GenProgressBar arch (F64.div project.Percent (F64.ofInt 100)) ++ str "\t"
        ++ fmtFloat2 project.Percent ++ str "%\n"))
    content
  let content := content ++ str "```\n"
  content

/-! ## Invariants used in the proofs -/

/-- The invariant of the aggregation loop: each distribution sums to `total`, and no
key occurs twice in the repository map. -/
def CommitStats.Balanced (st : CommitStats) : Prop :=
  (timeList.map (mapGet st.timeMap)).sum = st.total ∧
  (weekdayList.map (mapGet st.weekdayMap)).sum = st.total ∧
  (st.repoMap.map Prod.snd).sum = st.total ∧
  (st.repoMap.map Prod.fst).Nodup

/-- The running-maximum update that the loop of `GenCommitsInfo` applies to a counter
map and its incumbent key: count the event `w`, then let `w` replace the incumbent
when its new count is strictly greater than the incumbent's count. -/
def maxStep (s : GoMap × GoString) (w : GoString) : GoMap × GoString :=
  (mapIncr s.1 w, if mapGet (mapIncr s.1 w) w > mapGet (mapIncr s.1 w) s.2 then w else s.2)

/-- The invariant of a running maximum after the events `ev`: the map holds the number
of occurrences of every key, the incumbent has the highest count, and no key had
reached that count at a point where the incumbent had not. -/
def RunMax (ev : List GoString) (s : GoMap × GoString) : Prop :=
  (∀ k, mapGet s.1 k = (ev.count k : Int)) ∧
  (∀ k, ev.count k ≤ ev.count s.2) ∧
  (∀ n k, ev.count s.2 ≤ (ev.take n).count k → ev.count s.2 ≤ (ev.take n).count s.2)

/-! ## Lemmas on the formatter -/

theorem str_tab : str "\t" = [9] := by decide

theorem str_hash : str "#" = [35] := by decide

theorem str_dash : str "-" = [45] := by decide

theorem str_dots : str "..." = [46, 46, 46] := by decide

/-- A loop that appends the same string `k` times. -/
theorem foldl_append_const (x : GoString) (k : ℕ) (init : GoString) :
    (List.range k).foldl (fun tab _ => tab ++ x) init
      = init ++ (List.replicate k x).flatten := by
  induction k with
  | zero => simp
  | succ k ih => simp [List.range_succ, List.foldl_append, ih, List.replicate_succ']

/-- The truncation branch of `TextWithTab`: the first twelve bytes and three dots. -/
theorem truncate_eq (d : UInt8) (text : GoString) (h : 15 < text.length) :
    (((text.take 15).set 12 d).set 13 d).set 14 d = text.take 12 ++ [d, d, d] := by
  iterate 15 (rcases text with _ | ⟨_, text⟩; · simp at h)
  simp

/-- Closed form of `TextWithTab`. -/
theorem TextWithTab_eq (text : GoString) (maxTab : Int) :
    TextWithTab text maxTab
      = (if text.length ≤ 15 then text else text.take 12 ++ str "...")
        ++ List.replicate
            (wrapInt64 (maxTab - (((if text.length ≤ 15 then text
              else text.take 12 ++ str "...").length / 8 : ℕ) : Int))).toNat (9 : UInt8) := by
  unfold TextWithTab
  by_cases h : text.length ≤ 15
  · have h' : ¬ text.length > 15 := by omega
    simp only [h', h, if_true, if_false, foldl_append_const, str_tab, List.nil_append]
    simp
  · have h' : text.length > 15 := by omega
    have hd : '.'.toUInt8 = 46 := by decide
    simp only [h', h, if_true, if_false, foldl_append_const, str_tab, List.nil_append, hd,
      truncate_eq 46 text h', str_dots]
    simp

/-- Within the range of an `int` nothing wraps. -/
theorem wrapInt64_of_range {x : Int} (h0 : -2 ^ 63 ≤ x) (h1 : x < 2 ^ 63) : wrapInt64 x = x := by
  unfold wrapInt64
  omega

/-- Closed form of the loop of `GenProgressBar`, for any bar width `N`. -/
theorem bar_loop (n : Int) (N : ℕ) :
    (List.range N).foldl
        (fun block (i : ℕ) => if (i : Int) < n then block ++ str "#" else block ++ str "-") []
      = List.replicate (min n.toNat N) (35 : UInt8)
        ++ List.replicate (N - min n.toNat N) (45 : UInt8) := by
  induction N with
  | zero => simp
  | succ N ih =>
    rw [List.range_succ, List.foldl_append, ih]
    by_cases h : (N : Int) < n
    · have h1 : min n.toNat N = N := by omega
      have h2 : min n.toNat (N + 1) = N + 1 := by omega
      simp [h, h1, h2, str_hash, List.replicate_succ']
    · have h1 : min n.toNat (N + 1) = min n.toNat N := by omega
      have h3 : N + 1 - min n.toNat N = (N - min n.toNat N) + 1 := by omega
      simp [h, h1, h3, str_dash, List.replicate_succ']

/-! ## Lemmas on rounding -/

namespace F64

theorem roundHalfEven_le {y : ℚ} {K : ℕ} (h : y ≤ K) : roundHalfEven y ≤ K := by
  have hf : ⌊y⌋₊ ≤ K := Nat.floor_le_of_le h
  unfold roundHalfEven
  simp only
  have key : ¬ (y - (⌊y⌋₊ : ℚ) < 1 / 2) → ⌊y⌋₊ + 1 ≤ K := by
    intro hr
    have : ((⌊y⌋₊ : ℕ) : ℚ) < (K : ℚ) := by linarith
    have : ⌊y⌋₊ < K := by exact_mod_cast this
    omega
  split_ifs with h1 h2 h3
  · exact hf
  · exact key h1
  · exact hf
  · exact key h1

theorem le_roundHalfEven {y : ℚ} {K : ℕ} (h : (K : ℚ) ≤ y) : K ≤ roundHalfEven y := by
  have hf : K ≤ ⌊y⌋₊ := Nat.le_floor h
  unfold roundHalfEven
  simp only
  split_ifs <;> omega

theorem ulpExp_nonpos {x : ℚ} (h : x < 2 ^ 53) : ulpExp x ≤ 0 := by
  unfold ulpExp
  have hl : Int.log 2 x < 53 := by
    rcases le_or_lt x 0 with h0 | h0
    · rw [Int.log_of_right_le_zero 2 h0]; norm_num
    · exact (Int.lt_zpow_iff_log_lt (by norm_num) h0).1 (by exact_mod_cast h)
  omega

theorem roundMag_nonneg (x : ℚ) : 0 ≤ roundMag x := by
  unfold roundMag
  positivity

/-- Rounding never crosses a natural number from below: such a bound lies on the
binary64 grid around any magnitude under `2^53`. -/
theorem roundMag_le_nat {x : ℚ} {B : ℕ} (hx : x ≤ B) (hb : x < 2 ^ 53) : roundMag x ≤ B := by
  obtain ⟨n, hn⟩ := Int.exists_eq_neg_ofNat (ulpExp_nonpos hb)
  unfold roundMag
  rw [hn, zpow_neg, zpow_natCast]
  have hp : (0 : ℚ) < 2 ^ n := by positivity
  have h1 : x / (2 ^ n)⁻¹ ≤ ((B * 2 ^ n : ℕ) : ℚ) := by
    rw [div_inv_eq_mul]; push_cast
    exact mul_le_mul_of_nonneg_right hx hp.le
  have h2 : ((roundHalfEven (x / (2 ^ n)⁻¹) : ℕ) : ℚ) ≤ ((B * 2 ^ n : ℕ) : ℚ) := by
    exact_mod_cast roundHalfEven_le h1
  calc ((roundHalfEven (x / (2 ^ n)⁻¹) : ℕ) : ℚ) * (2 ^ n)⁻¹
      ≤ ((B * 2 ^ n : ℕ) : ℚ) * (2 ^ n)⁻¹ :=
        mul_le_mul_of_nonneg_right h2 (inv_nonneg.2 hp.le)
    _ = B := by push_cast; field_simp

/-- Rounding never crosses a natural number from above. -/
theorem nat_le_roundMag {x : ℚ} {B : ℕ} (hx : (B : ℚ) ≤ x) (hb : x < 2 ^ 53) :
    (B : ℚ) ≤ roundMag x := by
  obtain ⟨n, hn⟩ := Int.exists_eq_neg_ofNat (ulpExp_nonpos hb)
  unfold roundMag
  rw [hn, zpow_neg, zpow_natCast]
  have hp : (0 : ℚ) < 2 ^ n := by positivity
  have h1 : ((B * 2 ^ n : ℕ) : ℚ) ≤ x / (2 ^ n)⁻¹ := by
    rw [div_inv_eq_mul]; push_cast
    exact mul_le_mul_of_nonneg_right hx hp.le
  have h2 : ((B * 2 ^ n : ℕ) : ℚ) ≤ ((roundHalfEven (x / (2 ^ n)⁻¹) : ℕ) : ℚ) := by
    exact_mod_cast le_roundHalfEven h1
  calc (B : ℚ) = ((B * 2 ^ n : ℕ) : ℚ) * (2 ^ n)⁻¹ := by push_cast; field_simp
    _ ≤ ((roundHalfEven (x / (2 ^ n)⁻¹) : ℕ) : ℚ) * (2 ^ n)⁻¹ :=
        mul_le_mul_of_nonneg_right h2 (inv_nonneg.2 hp.le)

theorem floor_le_roundHalfEven (x : ℚ) : ⌊x⌋₊ ≤ roundHalfEven x := by
  unfold roundHalfEven
  simp only
  split_ifs <;> omega

theorem roundHalfEven_le_succ (x : ℚ) : roundHalfEven x ≤ ⌊x⌋₊ + 1 := by
  unfold roundHalfEven
  simp only
  split_ifs <;> omega

theorem roundHalfEven_mono {a b : ℚ} (h : a ≤ b) : roundHalfEven a ≤ roundHalfEven b := by
  have hf : ⌊a⌋₊ ≤ ⌊b⌋₊ := Nat.floor_mono h
  rcases Nat.lt_or_ge ⌊a⌋₊ ⌊b⌋₊ with hlt | hge
  · have h1 := roundHalfEven_le_succ a
    have h2 := floor_le_roundHalfEven b
    omega
  · have heq : ⌊a⌋₊ = ⌊b⌋₊ := le_antisymm hf hge
    unfold roundHalfEven
    simp only
    rw [heq]
    split_ifs <;> first | omega | (exfalso; linarith)

/-- Rounding never crosses a point of the grid around `x` from below. -/
theorem roundMag_le_grid {x : ℚ} {K : ℕ} {j : ℤ} (hj : ulpExp x ≤ j)
    (hx : x ≤ (K : ℚ) * 2 ^ j) : roundMag x ≤ (K : ℚ) * 2 ^ j := by
  obtain ⟨d, hd⟩ := Int.eq_ofNat_of_zero_le (sub_nonneg.2 hj)
  have hjd : j = (d : ℤ) + ulpExp x := by omega
  have hp : (0 : ℚ) < 2 ^ ulpExp x := by positivity
  have hsplit : (2 : ℚ) ^ j = 2 ^ d * 2 ^ ulpExp x := by
    rw [hjd, zpow_add₀ (by norm_num), zpow_natCast]
  unfold roundMag
  rw [hsplit] at hx ⊢
  have h1 : x / 2 ^ ulpExp x ≤ ((K * 2 ^ d : ℕ) : ℚ) := by
    rw [div_le_iff₀ hp]; push_cast; linarith
  have h2 : ((roundHalfEven (x / 2 ^ ulpExp x) : ℕ) : ℚ) ≤ ((K * 2 ^ d : ℕ) : ℚ) := by
    exact_mod_cast roundHalfEven_le h1
  calc ((roundHalfEven (x / 2 ^ ulpExp x) : ℕ) : ℚ) * 2 ^ ulpExp x
      ≤ ((K * 2 ^ d : ℕ) : ℚ) * 2 ^ ulpExp x := mul_le_mul_of_nonneg_right h2 hp.le
    _ = (K : ℚ) * (2 ^ d * 2 ^ ulpExp x) := by push_cast; ring

/-- Rounding never crosses a point of the grid around `x` from above. -/
theorem grid_le_roundMag {x : ℚ} {K : ℕ} {j : ℤ} (hj : ulpExp x ≤ j)
    (hx : (K : ℚ) * 2 ^ j ≤ x) : (K : ℚ) * 2 ^ j ≤ roundMag x := by
  obtain ⟨d, hd⟩ := Int.eq_ofNat_of_zero_le (sub_nonneg.2 hj)
  have hjd : j = (d : ℤ) + ulpExp x := by omega
  have hp : (0 : ℚ) < 2 ^ ulpExp x := by positivity
  have hsplit : (2 : ℚ) ^ j = 2 ^ d * 2 ^ ulpExp x := by
    rw [hjd, zpow_add₀ (by norm_num), zpow_natCast]
  unfold roundMag
  rw [hsplit] at hx ⊢
  have h1 : ((K * 2 ^ d : ℕ) : ℚ) ≤ x / 2 ^ ulpExp x := by
    rw [le_div_iff₀ hp]; push_cast; linarith
  have h2 : ((K * 2 ^ d : ℕ) : ℚ) ≤ ((roundHalfEven (x / 2 ^ ulpExp x) : ℕ) : ℚ) := by
    exact_mod_cast le_roundHalfEven h1
  calc (K : ℚ) * (2 ^ d * 2 ^ ulpExp x)
      = ((K * 2 ^ d : ℕ) : ℚ) * 2 ^ ulpExp x := by push_cast; ring
    _ ≤ ((roundHalfEven (x / 2 ^ ulpExp x) : ℕ) : ℚ) * 2 ^ ulpExp x :=
        mul_le_mul_of_nonneg_right h2 hp.le

theorem roundMag_zero : roundMag 0 = 0 := by
  simp [roundMag, roundHalfEven]

/-- Rounding to nearest is monotone. -/
theorem roundMag_mono {x y : ℚ} (hx : 0 ≤ x) (h : x ≤ y) : roundMag x ≤ roundMag y := by
  rcases hx.eq_or_lt with h0 | h0
  · rw [← h0, roundMag_zero]; exact roundMag_nonneg y
  have hy : 0 < y := lt_of_lt_of_le h0 h
  have hlog : Int.log 2 x ≤ Int.log 2 y := Int.log_mono_right h0 h
  rcases lt_or_ge (ulpExp x) (ulpExp y) with hlt | hge
  · have hL : Int.log 2 x + 1 ≤ Int.log 2 y ∧ -1022 < Int.log 2 y := by
      unfold ulpExp at hlt
      constructor <;> omega
    have hb1 : x ≤ ((1 : ℕ) : ℚ) * 2 ^ Int.log 2 y := by
      have h1 : x < 2 ^ (Int.log 2 x + 1) := by
        exact_mod_cast Int.lt_zpow_succ_log_self (b := 2) (by norm_num) x
      have h2 : (2 : ℚ) ^ (Int.log 2 x + 1) ≤ 2 ^ Int.log 2 y :=
        zpow_le_zpow_right₀ (by norm_num) hL.1
      simp only [Nat.cast_one, one_mul]
      linarith
    have hb2 : ((1 : ℕ) : ℚ) * 2 ^ Int.log 2 y ≤ y := by
      have : ((2 : ℕ) : ℚ) ^ Int.log 2 y ≤ y := Int.zpow_log_le_self (by norm_num) hy
      simp only [Nat.cast_one, one_mul]
      exact_mod_cast this
    have hjx : ulpExp x ≤ Int.log 2 y := by unfold ulpExp; omega
    have hjy : ulpExp y ≤ Int.log 2 y := by unfold ulpExp; omega
    exact le_trans (roundMag_le_grid hjx hb1) (grid_le_roundMag hjy hb2)
  · have he : ulpExp x = ulpExp y := by
      have : ulpExp x ≤ ulpExp y := by unfold ulpExp; omega
      omega
    have hp : (0 : ℚ) < 2 ^ ulpExp y := by positivity
    unfold roundMag
    rw [he]
    have h1 : x / 2 ^ ulpExp y ≤ y / 2 ^ ulpExp y := div_le_div_of_nonneg_right h hp.le
    have h2 : ((roundHalfEven (x / 2 ^ ulpExp y) : ℕ) : ℚ)
        ≤ ((roundHalfEven (y / 2 ^ ulpExp y) : ℕ) : ℚ) := by
      exact_mod_cast roundHalfEven_mono h1
    exact mul_le_mul_of_nonneg_right h2 hp.le

/-- Natural numbers below `2^53` are float64 values. -/
theorem roundMag_natCast {n : ℕ} (h : (n : ℚ) < 2 ^ 53) : roundMag (n : ℚ) = n :=
  le_antisymm (roundMag_le_nat le_rfl h) (nat_le_roundMag le_rfl h)

/-- Magnitudes up to `2^63` round to at most `2^63`. -/
theorem roundMag_le_two_pow_63 {x : ℚ} (h : x ≤ 2 ^ 63) : roundMag x ≤ 2 ^ 63 := by
  have hj : ulpExp x ≤ 63 := by
    unfold ulpExp
    have hl : Int.log 2 x < 64 := by
      rcases le_or_lt x 0 with h0 | h0
      · rw [Int.log_of_right_le_zero 2 h0]; norm_num
      · refine (Int.lt_zpow_iff_log_lt (by norm_num) h0).1 ?_
        have : (2 : ℚ) ^ 63 < 2 ^ 64 := by norm_num
        have h3 : x < 2 ^ 64 := lt_of_le_of_lt h this
        exact_mod_cast h3
    omega
  have hz : (2 : ℚ) ^ (63 : ℤ) = 2 ^ (63 : ℕ) := by norm_num
  have := roundMag_le_grid (K := 1) hj (by rw [hz]; simpa using h)
  rw [hz] at this
  simpa using this

/-- The conversion of a non-negative `int`. -/
theorem ofInt_of_nonneg {n : Int} (h0 : 0 ≤ n) (hb : n < 2 ^ 63) :
    ofInt n = fin false (roundMag (n.natAbs : ℚ)).toNNRat := by
  have hle : ((n.natAbs : ℕ) : ℚ) ≤ 2 ^ 63 := by
    have : (n.natAbs : ℤ) ≤ 2 ^ 63 := by omega
    exact_mod_cast this
  have hr := roundMag_le_two_pow_63 hle
  have hno : ¬ ((2 : ℚ) ^ 1024 ≤ roundMag (n.natAbs : ℚ)) := by
    have : (2 : ℚ) ^ 63 < 2 ^ 1024 := by norm_num
    intro hc; linarith
  have hneg : decide (n < 0) = false := by simpa using h0
  unfold ofInt round
  rw [hneg, if_neg hno]

/-- The quotient of two counters `0 ≤ c ≤ t` with `1 ≤ t` is a finite float64 in the
unit interval. -/
theorem div_ofInt_le_one {c t : Int} (h0 : 0 ≤ c) (hct : c ≤ t) (h1 : 1 ≤ t)
    (hb : t < 2 ^ 63) :
    ∃ p : NNRat, div (ofInt c) (ofInt t) = fin false p ∧ (p : ℚ) ≤ 1 := by
  have hcn : ((c.natAbs : ℕ) : ℚ) ≤ ((t.natAbs : ℕ) : ℚ) := by
    have : (c.natAbs : ℤ) ≤ (t.natAbs : ℤ) := by omega
    exact_mod_cast this
  have htn : ((1 : ℕ) : ℚ) ≤ ((t.natAbs : ℕ) : ℚ) := by
    have : ((1 : ℕ) : ℤ) ≤ (t.natAbs : ℤ) := by omega
    exact_mod_cast this
  have ha0 := roundMag_nonneg (c.natAbs : ℚ)
  have hab : roundMag (c.natAbs : ℚ) ≤ roundMag (t.natAbs : ℚ) :=
    roundMag_mono (by positivity) hcn
  have hb1 : (1 : ℚ) ≤ roundMag (t.natAbs : ℚ) := by
    have h := roundMag_mono (by norm_num) htn
    rwa [roundMag_natCast (by norm_num), Nat.cast_one] at h
  have hbpos : (0 : ℚ) < roundMag (t.natAbs : ℚ) := by linarith
  have hq1 : roundMag (c.natAbs : ℚ) / roundMag (t.natAbs : ℚ) ≤ ((1 : ℕ) : ℚ) := by
    rw [Nat.cast_one, div_le_one hbpos]; exact hab
  have hq53 : roundMag (c.natAbs : ℚ) / roundMag (t.natAbs : ℚ) < 2 ^ 53 := by
    have : ((1 : ℕ) : ℚ) < 2 ^ 53 := by norm_num
    linarith
  have hr1 := roundMag_le_nat hq1 hq53
  rw [Nat.cast_one] at hr1
  have hr0 := roundMag_nonneg (roundMag (c.natAbs : ℚ) / roundMag (t.natAbs : ℚ))
  have hno : ¬ ((2 : ℚ) ^ 1024
      ≤ roundMag (roundMag (c.natAbs : ℚ) / roundMag (t.natAbs : ℚ))) := by
    have : (1 : ℚ) < 2 ^ 1024 := by norm_num
    intro hc; linarith
  have hk : ¬ (roundMag (t.natAbs : ℚ)).toNNRat = 0 := by
    rw [Rat.toNNRat_eq_zero]; linarith
  refine ⟨(roundMag (roundMag (c.natAbs : ℚ) / roundMag (t.natAbs : ℚ))).toNNRat, ?_, ?_⟩
  · rw [ofInt_of_nonneg h0 (by omega), ofInt_of_nonneg (by omega) hb]
    unfold div round
    simp only [hk, if_false, Rat.coe_toNNRat _ ha0, Rat.coe_toNNRat _ hbpos.le, hno,
      Bool.xor_false]
  · rw [Rat.coe_toNNRat _ hr0]; exact hr1

/-- A point of the grid around itself is a float64 value. -/
theorem roundMag_grid_eq {K : ℕ} {j : ℤ} (hj : ulpExp ((K : ℚ) * 2 ^ j) ≤ j) :
    roundMag ((K : ℚ) * 2 ^ j) = (K : ℚ) * 2 ^ j :=
  le_antisymm (roundMag_le_grid hj le_rfl) (grid_le_roundMag hj le_rfl)

theorem ulpExp_le_of_lt {x : ℚ} {j : ℤ} (hj : -1074 ≤ j) (h0 : 0 < x)
    (hx : x < 2 ^ (j + 53)) : ulpExp x ≤ j := by
  unfold ulpExp
  have hl : Int.log 2 x < j + 53 :=
    (Int.lt_zpow_iff_log_lt (by norm_num) h0).1 (by exact_mod_cast hx)
  omega

theorem ofInt_25 : ofInt 25 = fin false 25 := by decide!

end F64

/-- The bar drawn once the product `per * 25` is known to be a finite value in
the range `[0, 25]`. -/
theorem GenProgressBar_of_mul (arch : F64 → Int) (per : F64) (neg : Bool) (p : NNRat)
    (hm : F64.mul per (F64.ofInt 25) = F64.fin neg p) (hp : (p : ℚ) ≤ 25)
    (hneg : neg = true → p = 0) :
    GenProgressBar arch per
      = List.replicate ⌊p⌋₊ (35 : UInt8) ++ List.replicate (25 - ⌊p⌋₊) (45 : UInt8) := by
  have hfl : ⌊p⌋₊ ≤ 25 := by
    rw [← NNRat.floor_coe]
    exact Nat.floor_le_of_le (by exact_mod_cast hp)
  have hcoe : ⌊(p : ℚ)⌋ = ((⌊p⌋₊ : ℕ) : Int) := (NNRat.coe_floor p).symm
  have ht : F64.toInt arch (F64.fin neg p) = ((⌊p⌋₊ : ℕ) : Int) := by
    unfold F64.toInt
    cases neg with
    | false =>
      simp only [hcoe, Bool.false_eq_true, if_false]
      rw [if_pos (by constructor <;> omega)]
    | true =>
      have h0 : p = 0 := hneg rfl
      subst h0
      simp
  unfold GenProgressBar
  simp only [hm, ht, bar_loop]
  have hmin : min ((⌊p⌋₊ : ℕ) : Int).toNat 25 = ⌊p⌋₊ := by
    rw [Int.toNat_natCast]; omega
  rw [hmin]

/-! ## Lemmas on maps -/

theorem mapGet_mapIncr (m : GoMap) (k k' : GoString) :
    mapGet (mapIncr m k) k' = mapGet m k' + (if k = k' then 1 else 0) := by
  induction m with
  | nil => by_cases h : k = k' <;> simp [mapIncr, mapGet, h]
  | cons p rest ih =>
    obtain ⟨a, v⟩ := p
    by_cases h1 : a = k
    · subst h1
      by_cases h2 : a = k' <;> simp [mapIncr, mapGet, h2]
    · by_cases h2 : a = k'
      · subst h2
        have h3 : ¬ k = a := fun h => h1 h.symm
        simp [mapIncr, mapGet, h1, h3]
      · simp [mapIncr, mapGet, h1, h2, ih]

theorem mapIncr_sum (m : GoMap) (k : GoString) :
    ((mapIncr m k).map Prod.snd).sum = (m.map Prod.snd).sum + 1 := by
  induction m with
  | nil => simp [mapIncr]
  | cons p rest ih =>
    obtain ⟨a, v⟩ := p
    by_cases h1 : a = k
    · simp [mapIncr, h1]; ring
    · simp [mapIncr, h1, ih]; ring

theorem mapIncr_keys (m : GoMap) (k : GoString) :
    (mapIncr m k).map Prod.fst
      = if k ∈ m.map Prod.fst then m.map Prod.fst else m.map Prod.fst ++ [k] := by
  induction m with
  | nil => simp [mapIncr]
  | cons p rest ih =>
    obtain ⟨a, v⟩ := p
    by_cases h1 : a = k
    · simp [mapIncr, h1]
    · have h3 : ¬ k = a := fun h => h1 h.symm
      by_cases h4 : k ∈ rest.map Prod.fst
      · simp only [mapIncr, h1, if_false, List.map_cons, ih, h4, if_true, List.mem_cons, or_true]
      · simp only [mapIncr, h1, if_false, List.map_cons, ih, h4, List.mem_cons, h3, or_self,
          List.cons_append]

theorem mapIncr_keys_nodup (m : GoMap) (k : GoString) (h : (m.map Prod.fst).Nodup) :
    ((mapIncr m k).map Prod.fst).Nodup := by
  rw [mapIncr_keys]
  split_ifs with hk
  · exact h
  · exact List.Nodup.append h (List.nodup_singleton k) (by simpa using hk)

/-- Counting an event raises the sum of the counts over a list of keys by the number
of times the event's key occurs in that list. -/
theorem sum_mapGet_mapIncr (m : GoMap) (w : GoString) (L : List GoString) :
    (L.map (mapGet (mapIncr m w))).sum = (L.map (mapGet m)).sum + (L.count w : Int) := by
  induction L with
  | nil => simp
  | cons a L ih =>
    simp only [List.map_cons, List.sum_cons, ih, mapGet_mapIncr, List.count_cons]
    by_cases h : w = a
    · subst h; simp; ring
    · have h' : ¬ a = w := fun e => h e.symm
      simp [h, h']; ring

/-! ## Lemmas on the clock -/

theorem Hour_range (loc : Location) (t : Int) : 0 ≤ Hour loc t ∧ Hour loc t < 24 := by
  unfold Hour
  constructor <;> omega

theorem Weekday_range (loc : Location) (t : Int) : 0 ≤ Weekday loc t ∧ Weekday loc t ≤ 6 := by
  unfold Weekday
  constructor <;> omega

theorem weekdayList_count (d : Int) (h0 : 0 ≤ d) (h6 : d ≤ 6) :
    weekdayList.count (WeekdayString d) = 1 := by
  interval_cases d <;> decide

theorem timeSwitch_eq (timeMap : GoMap) (h : Int) (h24 : h < 24) :
    timeSwitch timeMap h
      = mapIncr timeMap
          (if h < 6 then str "Night" else if h < 12 then str "Morning"
            else if h < 18 then str "Daytime" else str "Evening") := by
  unfold timeSwitch
  split_ifs <;> rfl

theorem timeList_count (h : Int) :
    timeList.count
      (if h < 6 then str "Night" else if h < 12 then str "Morning"
        else if h < 18 then str "Daytime" else str "Evening") = 1 := by
  split_ifs <;> decide

/-! ## Lemmas on the aggregation loop -/

theorem commitStep_balanced (loc : Location) (repoName : GoString) (st : CommitStats) (d : Int)
    (h : st.Balanced) : (commitStep loc repoName st d).Balanced := by
  obtain ⟨h1, h2, h3, h4⟩ := h
  refine ⟨?_, ?_, ?_, ?_⟩
  · show (timeList.map (mapGet (timeSwitch st.timeMap (Hour loc d)))).sum = st.total + 1
    rw [timeSwitch_eq _ _ (Hour_range loc d).2, sum_mapGet_mapIncr, timeList_count, h1]
    simp
  · show (weekdayList.map (mapGet (mapIncr st.weekdayMap (WeekdayString (Weekday loc d))))).sum
      = st.total + 1
    rw [sum_mapGet_mapIncr, weekdayList_count _ (Weekday_range loc d).1 (Weekday_range loc d).2,
      h2]
    simp
  · show ((mapIncr st.repoMap repoName).map Prod.snd).sum = st.total + 1
    rw [mapIncr_sum, h3]
  · exact mapIncr_keys_nodup _ _ h4

theorem foldl_commitStep_balanced (loc : Location) (repoName : GoString) (ds : List Int)
    (st : CommitStats) (h : st.Balanced) :
    (ds.foldl (commitStep loc repoName) st).Balanced := by
  induction ds generalizing st with
  | nil => exact h
  | cons d ds ih => exact ih _ (commitStep_balanced loc repoName st d h)

theorem foldl_commitStep_total (loc : Location) (repoName : GoString) (ds : List Int)
    (st : CommitStats) :
    (ds.foldl (commitStep loc repoName) st).total = st.total + (ds.length : Int) := by
  induction ds generalizing st with
  | nil => simp
  | cons d ds ih =>
    rw [List.foldl_cons, ih]
    simp [commitStep]; ring

theorem foldl_commitStep_repoList (loc : Location) (repoName : GoString) (ds : List Int)
    (st : CommitStats) :
    (ds.foldl (commitStep loc repoName) st).repoList = st.repoList := by
  induction ds generalizing st with
  | nil => rfl
  | cons d ds ih => rw [List.foldl_cons, ih]; rfl

theorem repoStep_balanced (loc : Location) (st : CommitStats) (rci : RepositoryCommitInfo)
    (h : st.Balanced) : (repoStep loc st rci).Balanced :=
  foldl_commitStep_balanced loc rci.Name rci.History _ h

theorem foldl_repoStep_balanced (loc : Location) (infos : List RepositoryCommitInfo)
    (st : CommitStats) (h : st.Balanced) : (infos.foldl (repoStep loc) st).Balanced := by
  induction infos generalizing st with
  | nil => exact h
  | cons rci infos ih => exact ih _ (repoStep_balanced loc st rci h)

theorem foldl_repoStep_total (loc : Location) (infos : List RepositoryCommitInfo)
    (st : CommitStats) :
    (infos.foldl (repoStep loc) st).total
      = st.total + ((infos.map (fun rci => rci.History.length)).sum : ℕ) := by
  induction infos generalizing st with
  | nil => simp
  | cons rci infos ih =>
    rw [List.foldl_cons, ih]
    simp only [repoStep, foldl_commitStep_total, List.map_cons, List.sum_cons]
    push_cast; ring

theorem foldl_repoStep_repoList (loc : Location) (infos : List RepositoryCommitInfo)
    (st : CommitStats) :
    (infos.foldl (repoStep loc) st).repoList
      = st.repoList ++ infos.map (fun rci => rci.Name) := by
  induction infos generalizing st with
  | nil => simp
  | cons rci infos ih =>
    rw [List.foldl_cons, ih]
    simp [repoStep, foldl_commitStep_repoList]

theorem init_balanced : CommitStats.init.Balanced := by
  refine ⟨by decide, by decide, by decide, by decide⟩

/-! ## Lemmas on the running maximum -/

theorem RunMax.step {ev : List GoString} {s : GoMap × GoString} (h : RunMax ev s)
    (w : GoString) : RunMax (ev ++ [w]) (maxStep s w) := by
  obtain ⟨ha, hb, hc⟩ := h
  have hcw : (ev ++ [w]).count w = ev.count w + 1 := by simp
  have hck : ∀ k, k ≠ w → (ev ++ [w]).count k = ev.count k := by
    intro k hk
    have : ¬ w = k := fun e => hk e.symm
    simp [List.count_singleton, this]
  have hget : ∀ k, mapGet (mapIncr s.1 w) k = ((ev ++ [w]).count k : Int) := by
    intro k
    rw [mapGet_mapIncr, ha]
    by_cases hk : w = k
    · subst hk; rw [hcw]; simp
    · rw [hck k (fun e => hk e.symm)]; simp [hk]
  have htake : ∀ n k, n ≤ ev.length →
      ((ev ++ [w]).take n).count k = (ev.take n).count k := by
    intro n k hn
    rw [List.take_append_of_le_length hn]
  have htake2 : ∀ n, ¬ n ≤ ev.length → (ev ++ [w]).take n = ev ++ [w] := by
    intro n hn
    apply List.take_of_length_le
    simp; omega
  have hmono : ∀ n k, (ev.take n).count k ≤ ev.count k :=
    fun n k => (List.take_sublist n ev).count_le k
  unfold maxStep
  by_cases hgt : mapGet (mapIncr s.1 w) w > mapGet (mapIncr s.1 w) s.2
  · simp only [if_pos hgt]
    rw [hget, hget] at hgt
    have hgt' : (ev ++ [w]).count s.2 < (ev ++ [w]).count w := by exact_mod_cast hgt
    have hne : s.2 ≠ w := by
      intro e; rw [e] at hgt'; exact lt_irrefl _ hgt'
    have hkey := hck s.2 hne
    have hbw := hb w
    refine ⟨hget, ?_, ?_⟩
    · dsimp only
      intro k
      by_cases hk : k = w
      · rw [hk]
      · have := hck k hk
        have := hb k
        omega
    · dsimp only
      intro n k hp
      by_cases hn : n ≤ ev.length
      · rw [htake n k hn] at hp
        have := hmono n k
        have := hb k
        omega
      · rw [htake2 n hn]
  · simp only [if_neg hgt]
    rw [hget, hget] at hgt
    have hgt' : (ev ++ [w]).count w ≤ (ev ++ [w]).count s.2 := by
      have : ¬ ((ev ++ [w]).count s.2 < (ev ++ [w]).count w) := by exact_mod_cast hgt
      omega
    refine ⟨hget, ?_, ?_⟩
    · dsimp only
      intro k
      by_cases hk : k = w
      · rw [hk]; exact hgt'
      · have := hck k hk
        have := hb k
        by_cases hs : s.2 = w
        · rw [hs] at this ⊢; omega
        · have := hck s.2 hs
          omega
    · dsimp only
      intro n k hp
      by_cases hn : n ≤ ev.length
      · rw [htake n k hn] at hp
        rw [htake n s.2 hn]
        have := hmono n k
        have := hb k
        by_cases hs : s.2 = w
        · rw [hs] at hp this; omega
        · have h1 := hck s.2 hs
          have := hc n k
          omega
      · rw [htake2 n hn]

theorem RunMax.foldl {ev : List GoString} {s : GoMap × GoString} (h : RunMax ev s)
    (ws : List GoString) : RunMax (ev ++ ws) (ws.foldl maxStep s) := by
  induction ws generalizing ev s with
  | nil => simpa using h
  | cons w ws ih =>
    have := ih (h.step w)
    simpa using this

theorem mapGet_zero (m : GoMap) (hz : ∀ p ∈ m, p.2 = 0) (k : GoString) : mapGet m k = 0 := by
  induction m with
  | nil => rfl
  | cons p rest ih =>
    obtain ⟨a, v⟩ := p
    have hv : v = 0 := hz (a, v) (by simp)
    have hr := ih (fun p hp => hz p (List.mem_cons_of_mem _ hp))
    by_cases h : a = k <;> simp [mapGet, h, hv, hr]

theorem RunMax.init (m : GoMap) (hz : ∀ p ∈ m, p.2 = 0) (k0 : GoString) : RunMax [] (m, k0) := by
  refine ⟨fun k => by simp [mapGet_zero m hz k], fun k => by simp, fun n k _ => by simp⟩

/-- The incumbent of a running maximum is one of the events, unless there is none. -/
theorem RunMax.mem {ev : List GoString} {s : GoMap × GoString} (h : RunMax ev s)
    (hne : ev ≠ []) : s.2 ∈ ev := by
  obtain ⟨w, ws, rfl⟩ := List.exists_cons_of_ne_nil hne
  have h1 := h.2.1 w
  have h2 : 0 < (w :: ws).count w := List.count_pos_iff.2 (by simp)
  exact List.count_pos_iff.1 (by omega)

/-- The facts about a running maximum that follow from the invariant. -/
theorem RunMax.facts {ev : List GoString} {m : GoMap} {key k0 : GoString}
    (h : RunMax ev (m, key)) (h0 : ev = [] → key = k0) :
    ((ev = [] ∧ key = k0) ∨ key ∈ ev) ∧
    (∀ k, mapGet m k = (ev.count k : Int)) ∧
    (∀ k, mapGet m k ≤ mapGet m key) ∧
    (∀ n k, ev.count key ≤ (ev.take n).count k → ev.count key ≤ (ev.take n).count key) := by
  refine ⟨?_, h.1, ?_, h.2.2⟩
  · by_cases he : ev = []
    · exact Or.inl ⟨he, h0 he⟩
    · exact Or.inr (h.mem he)
  · intro k
    rw [h.1 k, h.1 key]
    exact_mod_cast h.2.1 k

/-- The two running maxima of `GenCommitsInfo` as instances of `maxStep`. -/
theorem commitStep_maxStep (loc : Location) (repoName : GoString) (st : CommitStats) (d : Int) :
    ((commitStep loc repoName st d).weekdayMap, (commitStep loc repoName st d).maxDay)
      = maxStep (st.weekdayMap, st.maxDay) (WeekdayString (Weekday loc d)) ∧
    ((commitStep loc repoName st d).repoMap, (commitStep loc repoName st d).maxRepo)
      = maxStep (st.repoMap, st.maxRepo) repoName :=
  ⟨rfl, rfl⟩

theorem foldl_commitStep_maxStep (loc : Location) (repoName : GoString) (ds : List Int)
    (st : CommitStats) :
    ((ds.foldl (commitStep loc repoName) st).weekdayMap,
        (ds.foldl (commitStep loc repoName) st).maxDay)
      = (ds.map (fun d => WeekdayString (Weekday loc d))).foldl maxStep
          (st.weekdayMap, st.maxDay) ∧
    ((ds.foldl (commitStep loc repoName) st).repoMap,
        (ds.foldl (commitStep loc repoName) st).maxRepo)
      = (ds.map (fun _ => repoName)).foldl maxStep (st.repoMap, st.maxRepo) := by
  induction ds generalizing st with
  | nil => exact ⟨rfl, rfl⟩
  | cons d ds ih =>
    obtain ⟨h1, h2⟩ := ih (commitStep loc repoName st d)
    obtain ⟨e1, e2⟩ := commitStep_maxStep loc repoName st d
    simp only [List.foldl_cons, List.map_cons]
    rw [h1, h2, e1, e2]
    exact ⟨rfl, rfl⟩

theorem foldl_repoStep_maxStep (loc : Location) (infos : List RepositoryCommitInfo)
    (st : CommitStats) :
    ((infos.foldl (repoStep loc) st).weekdayMap, (infos.foldl (repoStep loc) st).maxDay)
      = (infos.flatMap
          (fun rci => rci.History.map (fun d => WeekdayString (Weekday loc d)))).foldl maxStep
          (st.weekdayMap, st.maxDay) ∧
    ((infos.foldl (repoStep loc) st).repoMap, (infos.foldl (repoStep loc) st).maxRepo)
      = (infos.flatMap (fun rci => rci.History.map (fun _ => rci.Name))).foldl maxStep
          (st.repoMap, st.maxRepo) := by
  induction infos generalizing st with
  | nil => exact ⟨rfl, rfl⟩
  | cons rci infos ih =>
    obtain ⟨h1, h2⟩ := ih (repoStep loc st rci)
    obtain ⟨e1, e2⟩ := foldl_commitStep_maxStep loc rci.Name rci.History
      { st with repoList := st.repoList ++ [rci.Name] }
    simp only [List.foldl_cons, List.flatMap_cons, List.foldl_append]
    rw [h1, h2]
    unfold repoStep
    rw [e1, e2]
    exact ⟨rfl, rfl⟩

/-- The running maximum of `main` keeps the count of the incumbent in a variable of
its own; that variable always equals the incumbent's entry in the map, so the update
is `maxStep` again. -/
theorem langStep_maxStep (st : LangStats) (node : RepositoryNode)
    (h : st.mostlyLangNum = mapGet st.langMap st.mostlyLangName) :
    ((langStep st node).langMap, (langStep st node).mostlyLangName)
      = maxStep (st.langMap, st.mostlyLangName)
          (if node.PrimaryLanguageName = [] then str "Other" else node.PrimaryLanguageName) ∧
    (langStep st node).mostlyLangNum
      = mapGet (langStep st node).langMap (langStep st node).mostlyLangName := by
  unfold langStep maxStep
  generalize (if node.PrimaryLanguageName = [] then str "Other"
    else node.PrimaryLanguageName) = w
  simp only [h, decide_eq_true_eq]
  by_cases hs : st.mostlyLangName = w
  · subst hs
    have h1 : mapGet (mapIncr st.langMap st.mostlyLangName) st.mostlyLangName
        > mapGet st.langMap st.mostlyLangName := by
      rw [mapGet_mapIncr]; simp
    simp [h1]
  · have h2 : mapGet (mapIncr st.langMap w) st.mostlyLangName
        = mapGet st.langMap st.mostlyLangName := by
      rw [mapGet_mapIncr]
      have : ¬ w = st.mostlyLangName := fun e => hs e.symm
      simp [this]
    rw [h2]
    by_cases hgt : mapGet (mapIncr st.langMap w) w > mapGet st.langMap st.mostlyLangName
    · simp [hgt]
    · simp [hgt, h2]

theorem foldl_langStep_maxStep (edges : List RepositoryNode) (st : LangStats)
    (h : st.mostlyLangNum = mapGet st.langMap st.mostlyLangName) :
    ((edges.foldl langStep st).langMap, (edges.foldl langStep st).mostlyLangName)
      = (edges.map (fun node => if node.PrimaryLanguageName = [] then str "Other"
          else node.PrimaryLanguageName)).foldl maxStep (st.langMap, st.mostlyLangName) ∧
    (edges.foldl langStep st).mostlyLangNum
      = mapGet (edges.foldl langStep st).langMap (edges.foldl langStep st).mostlyLangName := by
  induction edges generalizing st with
  | nil => exact ⟨rfl, h⟩
  | cons node edges ih =>
    obtain ⟨e1, e2⟩ := langStep_maxStep st node h
    obtain ⟨h1, h2⟩ := ih (langStep st node) e2
    simp only [List.foldl_cons, List.map_cons]
    rw [h1, e1]
    exact ⟨rfl, h2⟩

/-- Induction over the aggregation loop: a property of the loop variables that holds
initially and is kept by the registration of a repository name and by the body of the
inner loop holds when the loop ends. -/
theorem aggregate_induction (loc : Location) (P : CommitStats → Prop)
    (h0 : P CommitStats.init)
    (hname : ∀ st name, P st → P { st with repoList := st.repoList ++ [name] })
    (hstep : ∀ st name d, P st → P (commitStep loc name st d))
    (infos : List RepositoryCommitInfo) : P (aggregate loc infos) := by
  have hin : ∀ (name : GoString) (ds : List Int) (st : CommitStats), P st →
      P (ds.foldl (commitStep loc name) st) := by
    intro name ds
    induction ds with
    | nil => intro st h; exact h
    | cons d ds ih => intro st h; exact ih _ (hstep st name d h)
  have hout : ∀ (l : List RepositoryCommitInfo) (st : CommitStats), P st →
      P (l.foldl (repoStep loc) st) := by
    intro l
    induction l with
    | nil => intro st h; exact h
    | cons rci l ih => intro st h; exact ih _ (hin rci.Name rci.History _ (hname st rci.Name h))
  exact hout infos _ h0

/-- Every counter of the three maps lies between zero and `total`. -/
theorem aggregate_counts_le_total (loc : Location) (infos : List RepositoryCommitInfo)
    (k : GoString) :
    (0 ≤ mapGet (aggregate loc infos).timeMap k
      ∧ mapGet (aggregate loc infos).timeMap k ≤ (aggregate loc infos).total) ∧
    (0 ≤ mapGet (aggregate loc infos).weekdayMap k
      ∧ mapGet (aggregate loc infos).weekdayMap k ≤ (aggregate loc infos).total) ∧
    (0 ≤ mapGet (aggregate loc infos).repoMap k
      ∧ mapGet (aggregate loc infos).repoMap k ≤ (aggregate loc infos).total) := by
  refine aggregate_induction loc
    (fun st => (0 ≤ mapGet st.timeMap k ∧ mapGet st.timeMap k ≤ st.total) ∧
      (0 ≤ mapGet st.weekdayMap k ∧ mapGet st.weekdayMap k ≤ st.total) ∧
      (0 ≤ mapGet st.repoMap k ∧ mapGet st.repoMap k ≤ st.total)) ?_ ?_ ?_ infos
  · have h1 : mapGet CommitStats.init.timeMap k = 0 := mapGet_zero _ (by decide) k
    have h2 : mapGet CommitStats.init.weekdayMap k = 0 := mapGet_zero _ (by decide) k
    have h3 : mapGet CommitStats.init.repoMap k = 0 := rfl
    dsimp only
    rw [h1, h2, h3]
    simp [CommitStats.init]
  · intro st name h
    exact h
  · intro st name d h
    obtain ⟨⟨a1, a2⟩, ⟨b1, b2⟩, ⟨c1, c2⟩⟩ := h
    have ht : mapGet (commitStep loc name st d).timeMap k
        = mapGet st.timeMap k
          + (if (if Hour loc d < 6 then str "Night" else if Hour loc d < 12 then str "Morning"
              else if Hour loc d < 18 then str "Daytime" else str "Evening") = k
            then 1 else 0) := by
      show mapGet (timeSwitch st.timeMap (Hour loc d)) k = _
      rw [timeSwitch_eq _ _ (Hour_range loc d).2, mapGet_mapIncr]
    have hw : mapGet (commitStep loc name st d).weekdayMap k
        = mapGet st.weekdayMap k
          + (if WeekdayString (Weekday loc d) = k then 1 else 0) := mapGet_mapIncr _ _ _
    have hr : mapGet (commitStep loc name st d).repoMap k
        = mapGet st.repoMap k + (if name = k then 1 else 0) := mapGet_mapIncr _ _ _
    have htot : (commitStep loc name st d).total = st.total + 1 := rfl
    rw [ht, hw, hr, htot]
    refine ⟨⟨?_, ?_⟩, ⟨?_, ?_⟩, ⟨?_, ?_⟩⟩ <;> split_ifs <;> omega

/-! ## Lemmas on the start of the week -/

/-- Away from a zone transition `time.Date` returns the instant whose civil time in the
location is the one asked for. -/
theorem DateIn_stable (loc : Location) (day secs c : Int)
    (hc : -86400 ≤ c ∧ c ≤ 86400) (hs : 0 ≤ secs ∧ secs < 86400)
    (h : ∀ t, day * 86400 - 172800 ≤ t → t ≤ day * 86400 + 172800 → loc t = c) :
    DateIn loc day secs = day * 86400 + secs - c ∧ loc (DateIn loc day secs) = c := by
  have e1 : loc (day * 86400 + secs) = c := h _ (by omega) (by omega)
  have e2 : loc (day * 86400 + secs - c) = c := h _ (by omega) (by omega)
  unfold DateIn
  simp only [e1, e2, and_self]

theorem weekOffset_range (loc : Location) (t : Int) :
    -6 ≤ weekOffset (Weekday loc t) ∧ weekOffset (Weekday loc t) ≤ 0 ∧
    ((t + loc t) / 86400 + weekOffset (Weekday loc t) + 4) % 7 = 1 := by
  unfold weekOffset Weekday
  simp only
  split_ifs <;> omega

/-! ## Lemmas on the renderers -/

/-- A loop that appends one piece per element. -/
theorem foldl_append_map {α : Type} (f : α → GoString) (l : List α) (init : GoString) :
    l.foldl (fun content i => content ++ f i) init = init ++ (l.map f).flatten := by
  induction l generalizing init with
  | nil => simp
  | cons a l ih => simp [ih]

/-- A loop that appends one piece per element, skipping some elements. -/
theorem foldl_append_filter {α : Type} (f : α → GoString) (z : α → Prop) [DecidablePred z]
    (l : List α) (init : GoString) :
    l.foldl (fun content i => if z i then content else content ++ f i) init
      = init ++ ((l.filter (fun i => decide (¬ z i))).map f).flatten := by
  induction l generalizing init with
  | nil => simp
  | cons a l ih =>
    by_cases h : z a
    · simp [ih, h]
    · simp [ih, h]

/-- A loop that prepends one piece per element. -/
theorem foldl_prepend_map {α : Type} (f : α → GoString) (l : List α) (init : GoString) :
    l.foldl (fun content i => f i ++ content) init = (l.reverse.map f).flatten ++ init := by
  induction l generalizing init with
  | nil => simp
  | cons a l ih => simp [ih]

theorem ofInt_zero : F64.ofInt 0 = F64.fin false 0 := by decide!

/-- A report line when both the count and the total are zero: the quotient is NaN. -/
theorem commitLine_zero (arch : F64 → Int) (label : GoString) :
    commitLine arch label 0 0
      = TextWithTab label 2 ++ str "0 commits\t" ++ GenProgressBar arch F64.nan
        ++ str "\t" ++ str "NaN" ++ str "%\n" := by
  have h1 : F64.div (F64.ofInt 0) (F64.ofInt 0) = F64.nan := by
    rw [ofInt_zero]; simp [F64.div]
  have h2 : TextWithTab (fmtInt 0 ++ str " commits") 2 = str "0 commits\t" := by decide
  unfold commitLine
  simp only [h1, h2]
  rfl

theorem foldl_commitStep_nil (loc : Location) (infos : List RepositoryCommitInfo)
    (st : CommitStats) (h : ∀ rci ∈ infos, rci.History = []) :
    infos.foldl (repoStep loc) st
      = { st with repoList := st.repoList ++ infos.map (fun rci => rci.Name) } := by
  induction infos generalizing st with
  | nil => simp
  | cons rci infos ih =>
    have h0 : rci.History = [] := h rci (by simp)
    rw [List.foldl_cons, ih _ (fun r hr => h r (List.mem_cons_of_mem _ hr))]
    simp [repoStep, h0]

/-- With no commit at all the loop leaves the counters as they were initialised. -/
theorem aggregate_of_total_zero (loc : Location) (infos : List RepositoryCommitInfo)
    (h : (aggregate loc infos).total = 0) :
    aggregate loc infos
      = { CommitStats.init with repoList := infos.map (fun rci => rci.Name) } := by
  have ht : (aggregate loc infos).total
      = ((infos.map (fun rci => rci.History.length)).sum : ℕ) := by
    unfold aggregate
    rw [foldl_repoStep_total]
    simp [CommitStats.init]
  rw [ht] at h
  have hs : (infos.map (fun rci => rci.History.length)).sum = 0 := by exact_mod_cast h
  have hall : ∀ rci ∈ infos, rci.History = [] := by
    intro rci hr
    have := (List.sum_eq_zero_iff.1 hs) rci.History.length (List.mem_map.2 ⟨rci, hr, rfl⟩)
    exact List.length_eq_zero.1 this
  unfold aggregate
  rw [foldl_commitStep_nil loc infos _ hall]
  simp [CommitStats.init]

/-! ## Lemmas on the language loop -/

theorem foldl_langStep_counts (edges : List RepositoryNode) (st : LangStats) :
    ((edges.foldl langStep st).langMap.map Prod.snd).sum
      = (st.langMap.map Prod.snd).sum + (edges.length : Int) ∧
    (edges.foldl langStep st).nPublic + (edges.foldl langStep st).nPrivate
      = st.nPublic + st.nPrivate + (edges.length : Int) ∧
    (edges.foldl langStep st).nPrivate
      = st.nPrivate + ((edges.countP (fun node => node.IsPrivate) : ℕ) : Int) ∧
    ((st.langMap.map Prod.fst).Nodup →
      ((edges.foldl langStep st).langMap.map Prod.fst).Nodup) := by
  induction edges generalizing st with
  | nil => simp
  | cons node edges ih =>
    obtain ⟨h1, h2, h3, h4⟩ := ih (langStep st node)
    have e1 : ((langStep st node).langMap.map Prod.snd).sum
        = (st.langMap.map Prod.snd).sum + 1 := mapIncr_sum _ _
    have e2 : (langStep st node).nPublic + (langStep st node).nPrivate
        = st.nPublic + st.nPrivate + 1 := by
      unfold langStep
      by_cases hp : node.IsPrivate = true
      · simp [hp]; ring
      · simp [hp]; ring
    have e3 : (langStep st node).nPrivate
        = st.nPrivate + (if node.IsPrivate = true then 1 else 0) := by
      unfold langStep
      by_cases hp : node.IsPrivate = true <;> simp [hp]
    refine ⟨?_, ?_, ?_, ?_⟩
    · rw [List.foldl_cons, h1, e1]; push_cast [List.length_cons]; ring
    · rw [List.foldl_cons, h2, e2]; push_cast [List.length_cons]; ring
    · rw [List.foldl_cons, h3, e3, List.countP_cons]
      by_cases hp : node.IsPrivate = true
      · simp [hp]; ring
      · simp [hp]
    · intro hn
      exact h4 (mapIncr_keys_nodup _ _ hn)

theorem count_display (edges : List RepositoryNode) (k : GoString) :
    (edges.map (fun node =>
        if node.PrimaryLanguageName = [] then str "Other" else node.PrimaryLanguageName)).count k
      = edges.countP (fun node =>
          decide ((if node.PrimaryLanguageName = [] then str "Other"
            else node.PrimaryLanguageName) = k)) := by
  induction edges with
  | nil => rfl
  | cons node edges ih =>
    rw [List.map_cons, List.count_cons, List.countP_cons, ih]
    simp

/-- Every language count is the number of repositories with that display language. -/
theorem langLoop_mapGet (edges : List RepositoryNode) (k : GoString) :
    mapGet (langLoop edges).langMap k
      = (edges.countP (fun node =>
          decide ((if node.PrimaryLanguageName = [] then str "Other"
            else node.PrimaryLanguageName) = k)) : ℕ) := by
  have hL := (foldl_langStep_maxStep edges LangStats.init rfl).1
  have iL := (RunMax.init LangStats.init.langMap (by decide) LangStats.init.mostlyLangName).foldl
    (edges.map (fun node =>
      if node.PrimaryLanguageName = [] then str "Other" else node.PrimaryLanguageName))
  rw [← hL] at iL
  have := iL.1 k
  simp only [List.nil_append] at this
  rw [count_display] at this
  exact this

/-! ## Lemmas on the string order -/

theorem strLe_total (a b : GoString) : strLe a b ∨ strLe b a := by
  unfold strLe
  induction a generalizing b with
  | nil => cases b <;> simp [strLess]
  | cons x a ih =>
    cases b with
    | nil => simp [strLess]
    | cons y b =>
      simp only [strLess]
      rcases lt_trichotomy x.toNat y.toNat with h | h | h
      · have h' : ¬ y.toNat < x.toNat := by omega
        simp [h, h']
      · have h1 : ¬ x.toNat < y.toNat := by omega
        have h2 : ¬ y.toNat < x.toNat := by omega
        simpa [h1, h2] using ih b
      · have h' : ¬ x.toNat < y.toNat := by omega
        simp [h, h']

theorem strLe_trans (a b c : GoString) (hab : strLe a b) (hbc : strLe b c) : strLe a c := by
  unfold strLe at *
  induction a generalizing b c with
  | nil => cases c <;> simp [strLess]
  | cons x a ih =>
    cases b with
    | nil => simp [strLess] at hab
    | cons y b =>
      cases c with
      | nil => simp [strLess] at hbc
      | cons z c =>
        simp only [strLess] at hab hbc ⊢
        by_cases h1 : y.toNat < x.toNat
        · simp [h1] at hab
        · by_cases h2 : z.toNat < y.toNat
          · simp [h2] at hbc
          · by_cases h3 : x.toNat < y.toNat
            · have h4 : ¬ z.toNat < x.toNat := by omega
              have h5 : x.toNat < z.toNat := by omega
              simp [h4, h5]
            · by_cases h6 : y.toNat < z.toNat
              · have h4 : ¬ z.toNat < x.toNat := by omega
                have h5 : x.toNat < z.toNat := by omega
                simp [h4, h5]
              · have h4 : ¬ z.toNat < x.toNat := by omega
                have h5 : ¬ x.toNat < z.toNat := by omega
                simp only [h1, h2, h3, h6, if_false] at hab hbc
                simp only [h4, h5, if_false]
                exact ih b c hab hbc

theorem sortStrings_sorted (l : List GoString) : (sortStrings l).Sorted strLe :=
  @List.sorted_insertionSort GoString strLe _ ⟨strLe_total⟩ ⟨strLe_trans⟩ l

theorem sortStrings_perm (l : List GoString) : (sortStrings l).Perm l :=
  List.perm_insertionSort strLe l

theorem aggregate_repoList (loc : Location) (infos : List RepositoryCommitInfo) :
    (aggregate loc infos).repoList = infos.map (fun rci => rci.Name) := by
  unfold aggregate
  rw [foldl_repoStep_repoList]
  simp [CommitStats.init]

theorem aggregate_repoMap (loc : Location) (infos : List RepositoryCommitInfo) (r : GoString) :
    mapGet (aggregate loc infos).repoMap r
      = ((infos.flatMap (fun rci => rci.History.map (fun _ => rci.Name))).count r : ℕ) := by
  have hR := (foldl_repoStep_maxStep loc infos CommitStats.init).2
  have iR := (RunMax.init CommitStats.init.repoMap (by decide) CommitStats.init.maxRepo).foldl
    (infos.flatMap (fun rci => rci.History.map (fun _ => rci.Name)))
  rw [← hR] at iR
  simpa using iR.1 r

/-! ## Lemmas on the repository block -/

theorem sum_map_ite_of_not_mem (L : List GoString) (e : GoString) (he : e ∉ L) :
    (L.map (fun r => if e = r then 1 else 0)).sum = 0 := by
  induction L with
  | nil => simp
  | cons a L ih =>
    have h1 : ¬ e = a := fun x => he (by simp [x])
    have h2 : e ∉ L := fun x => he (List.mem_cons_of_mem _ x)
    simp [h1, ih h2]

theorem sum_map_ite_of_nodup (L : List GoString) (e : GoString) (hn : L.Nodup) (he : e ∈ L) :
    (L.map (fun r => if e = r then 1 else 0)).sum = 1 := by
  induction L with
  | nil => simp at he
  | cons a L ih =>
    obtain ⟨ha, hL⟩ := List.nodup_cons.1 hn
    by_cases h : e = a
    · subst h
      simp [sum_map_ite_of_not_mem L e ha]
    · have he' : e ∈ L := by
        rcases List.mem_cons.1 he with x | x
        · exact absurd x h
        · exact x
      simp [h, ih hL he']

/-- Over a duplicate-free list of keys that contains every event, the occurrence counts
add up to the number of events. -/
theorem sum_count_eq_length (L ev : List GoString) (hn : L.Nodup) (hsub : ∀ e ∈ ev, e ∈ L) :
    (L.map (fun r => ev.count r)).sum = ev.length := by
  induction ev with
  | nil => simp
  | cons e ev ih =>
    have h1 : (fun r => (e :: ev).count r)
        = fun r => ev.count r + (if e = r then 1 else 0) := by
      funext r
      by_cases h : e = r
      · subst h; simp
      · simp [List.count_cons, h]
    rw [h1, List.sum_map_add, ih (fun x hx => hsub x (List.mem_cons_of_mem _ hx)),
      sum_map_ite_of_nodup L e hn (hsub e (by simp))]
    simp

theorem sum_filter_ne_zero (f : GoString → Int) (l : List GoString) :
    ((l.filter (fun r => decide (¬ f r = 0))).map f).sum = (l.map f).sum := by
  induction l with
  | nil => rfl
  | cons a l ih =>
    by_cases h : f a = 0
    · rw [List.filter_cons_of_neg (by simpa using h), ih, List.map_cons, List.sum_cons, h,
        zero_add]
    · rw [List.filter_cons_of_pos (by simpa using h), List.map_cons, List.sum_cons, ih,
        List.map_cons, List.sum_cons]

theorem length_repoEvents (infos : List RepositoryCommitInfo) :
    (infos.flatMap (fun rci => rci.History.map (fun _ => rci.Name))).length
      = (infos.map (fun rci => rci.History.length)).sum := by
  induction infos with
  | nil => rfl
  | cons rci infos ih =>
    simp only [List.flatMap_cons, List.length_append, List.length_map, ih, List.map_cons,
      List.sum_cons]

theorem aggregate_total_events (loc : Location) (infos : List RepositoryCommitInfo) :
    (aggregate loc infos).total
      = ((infos.flatMap (fun rci => rci.History.map (fun _ => rci.Name))).length : ℕ) := by
  rw [length_repoEvents]
  unfold aggregate
  rw [foldl_repoStep_total]
  simp [CommitStats.init]

/-- With pairwise distinct repository names the counts shown in the repository block
add up to `total`. -/
theorem repo_counts_sum_of_nodup (loc : Location) (infos : List RepositoryCommitInfo)
    (hn : (infos.map (fun rci => rci.Name)).Nodup) :
    (((sortStrings (aggregate loc infos).repoList).filter
        (fun r => decide (¬ mapGet (aggregate loc infos).repoMap r = 0))).map
        (mapGet (aggregate loc infos).repoMap)).sum
      = (aggregate loc infos).total := by
  rw [sum_filter_ne_zero, aggregate_repoList,
    ((sortStrings_perm (infos.map (fun rci => rci.Name))).map _).sum_eq]
  have hfun : mapGet (aggregate loc infos).repoMap
      = fun r => (((infos.flatMap
          (fun rci => rci.History.map (fun _ => rci.Name))).count r : ℕ) : Int) := by
    funext r
    exact aggregate_repoMap loc infos r
  rw [hfun, aggregate_total_events]
  have := sum_count_eq_length (infos.map (fun rci => rci.Name))
    (infos.flatMap (fun rci => rci.History.map (fun _ => rci.Name))) hn
    (by
      intro e he
      simp only [List.mem_flatMap, List.mem_map] at he ⊢
      obtain ⟨rci, hr, _, _, rfl⟩ := he
      exact ⟨rci, hr, rfl⟩)
  rw [← this, List.map_map, List.map_map]
  simp only [Function.comp_def]
  push_cast [Nat.cast_list_sum, List.map_map]
  simp only [Function.comp_def]

/-! ## Theorems on the formatter -/

/-- C1: for every fraction `f` with `0 ≤ f ≤ 1`, `GenProgressBar f` has exactly 25
bytes: `floor (f * 25)` times `#` followed by `25 - floor (f * 25)` times `-`, where
`f * 25` is the float64 product `p` the code computes (it is finite, has the sign of
`f`, and its floor lies between the floor and the ceiling of the exact product).
In particular `0` gives 25 `-`, `1` gives 25 `#` and `0.5` gives 12 `#` then 13 `-`. -/
theorem GenProgressBar_unit_interval (arch : F64 → Int) (neg : Bool) (mag : NNRat)
    (h0 : 0 ≤ (F64.fin neg mag).toRat) (h1 : (F64.fin neg mag).toRat ≤ 1) :
    ∃ p : NNRat,
      F64.mul (F64.fin neg mag) (F64.ofInt 25) = F64.fin neg p ∧
      ⌊(mag : ℚ) * 25⌋₊ ≤ ⌊p⌋₊ ∧ ⌊p⌋₊ ≤ ⌈(mag : ℚ) * 25⌉₊ ∧ ⌊p⌋₊ ≤ 25 ∧
      GenProgressBar arch (F64.fin neg mag)
        = List.replicate ⌊p⌋₊ '#'.toUInt8 ++ List.replicate (25 - ⌊p⌋₊) '-'.toUInt8 ∧
      (GenProgressBar arch (F64.fin neg mag)).length = 25 ∧
      GenProgressBar arch (F64.ofInt 0) = str "-------------------------" ∧
      GenProgressBar arch (F64.ofInt 1) = str "#########################" ∧
      GenProgressBar arch (F64.div (F64.ofInt 1) (F64.ofInt 2))
        = str "############-------------" := by
  have hmag0 : (0 : ℚ) ≤ (mag : ℚ) := mag.coe_nonneg
  have hmag1 : (mag : ℚ) ≤ 1 := by
    cases neg with
    | false => simpa [F64.toRat] using h1
    | true =>
      have : (mag : ℚ) ≤ 0 := by simpa [F64.toRat] using h0
      linarith
  have hnegz : neg = true → (mag : ℚ) = 0 := by
    intro hn
    subst hn
    have : (mag : ℚ) ≤ 0 := by simpa [F64.toRat] using h0
    linarith
  have hx0 : (0 : ℚ) ≤ (mag : ℚ) * 25 := by positivity
  have hx25 : (mag : ℚ) * 25 ≤ ((25 : ℕ) : ℚ) := by push_cast; linarith
  have hxb : (mag : ℚ) * 25 < 2 ^ 53 := by
    have : (25 : ℚ) < 2 ^ 53 := by norm_num
    push_cast at hx25; linarith
  have hr25 : F64.roundMag ((mag : ℚ) * 25) ≤ 25 := by
    simpa using F64.roundMag_le_nat hx25 hxb
  have hr0 := F64.roundMag_nonneg ((mag : ℚ) * 25)
  have hcoe : (((F64.roundMag ((mag : ℚ) * 25)).toNNRat : NNRat) : ℚ)
      = F64.roundMag ((mag : ℚ) * 25) := Rat.coe_toNNRat _ hr0
  have hmul : F64.mul (F64.fin neg mag) (F64.ofInt 25)
      = F64.fin neg (F64.roundMag ((mag : ℚ) * 25)).toNNRat := by
    rw [F64.ofInt_25]
    have hno : ¬ ((2 : ℚ) ^ 1024 ≤ F64.roundMag ((mag : ℚ) * 25)) := by
      have : (25 : ℚ) < 2 ^ 1024 := by norm_num
      intro hc; linarith
    simp [F64.mul, F64.round, hno]
  have hbar := GenProgressBar_of_mul arch (F64.fin neg mag) neg _ hmul
    (by rw [hcoe]; exact hr25)
    (by
      intro hn
      have hz := hnegz hn
      have : F64.roundMag ((mag : ℚ) * 25) ≤ ((0 : ℕ) : ℚ) :=
        F64.roundMag_le_nat (by rw [hz]; simp) hxb
      have h00 : F64.roundMag ((mag : ℚ) * 25) = 0 := le_antisymm (by simpa using this) hr0
      rw [h00]; simp)
  have hfl25 : ⌊(F64.roundMag ((mag : ℚ) * 25)).toNNRat⌋₊ ≤ 25 := by
    rw [← NNRat.floor_coe, hcoe]
    exact Nat.floor_le_of_le (by exact_mod_cast hr25)
  have hh : '#'.toUInt8 = 35 := by decide
  have hd : '-'.toUInt8 = 45 := by decide
  refine ⟨_, hmul, ?_, ?_, hfl25, ?_, ?_, ?_, ?_, ?_⟩
  · rw [← NNRat.floor_coe, hcoe]
    exact Nat.le_floor (F64.nat_le_roundMag (Nat.floor_le hx0) hxb)
  · rw [← NNRat.floor_coe, hcoe]
    exact Nat.floor_le_of_le (F64.roundMag_le_nat (Nat.le_ceil _) hxb)
  · rw [hbar, hh, hd]
  · rw [hbar]; simp; omega
  · rw [GenProgressBar_of_mul arch (F64.ofInt 0) false 0 (by decide!) (by norm_num)
      (by simp)]
    decide
  · rw [GenProgressBar_of_mul arch (F64.ofInt 1) false 25 (by decide!) (by norm_num)
      (by simp)]
    decide
  · rw [GenProgressBar_of_mul arch (F64.div (F64.ofInt 1) (F64.ofInt 2)) false (25 / 2)
      (by decide!) (by norm_num) (by simp)]
    decide!

/-- Witness for C1 at the fraction `1/2`. -/
theorem GenProgressBar_unit_interval_witness :
    (0 : ℚ) ≤ (F64.fin false (1 / 2)).toRat ∧ (F64.fin false (1 / 2)).toRat ≤ 1 ∧
    ∃ p : NNRat,
      F64.mul (F64.fin false (1 / 2)) (F64.ofInt 25) = F64.fin false p ∧
      ⌊(((1 / 2 : NNRat) : NNRat) : ℚ) * 25⌋₊ ≤ ⌊p⌋₊ ∧
      ⌊p⌋₊ ≤ ⌈(((1 / 2 : NNRat) : NNRat) : ℚ) * 25⌉₊ ∧ ⌊p⌋₊ ≤ 25 ∧
      GenProgressBar amd64Conv (F64.fin false (1 / 2))
        = List.replicate ⌊p⌋₊ '#'.toUInt8 ++ List.replicate (25 - ⌊p⌋₊) '-'.toUInt8 ∧
      (GenProgressBar amd64Conv (F64.fin false (1 / 2))).length = 25 ∧
      GenProgressBar amd64Conv (F64.ofInt 0) = str "-------------------------" ∧
      GenProgressBar amd64Conv (F64.ofInt 1) = str "#########################" ∧
      GenProgressBar amd64Conv (F64.div (F64.ofInt 1) (F64.ofInt 2))
        = str "############-------------" :=
  ⟨by decide!, by decide!,
    GenProgressBar_unit_interval amd64Conv false (1 / 2) (by decide!) (by decide!)⟩

/-- C2: the label part of `TextWithTab text maxTab` (the result without the `k`
padding tabs the loop appended) is `text` unchanged when `text` has at most 15
bytes, and otherwise has exactly 15 bytes: the first 12 bytes of `text` followed by
`...`. The 16-byte `ExactlyFifteenCh` yields the label `ExactlyFifte...`. -/
theorem TextWithTab_label (text : GoString) (maxTab : Int) :
    ∃ (label : GoString) (k : ℕ),
      label = (if text.length ≤ 15 then text else text.take 12 ++ str "...") ∧
      TextWithTab text maxTab = label ++ List.replicate k '\t'.toUInt8 ∧
      label.length = min text.length 15 ∧
      (str "ExactlyFifteenCh").length = 16 ∧
      TextWithTab (str "ExactlyFifteenCh") 2 = str "ExactlyFifte..." ++ str "\t" := by
  refine ⟨_, (wrapInt64 (maxTab - (((if text.length ≤ 15 then text
    else text.take 12 ++ str "...").length / 8 : ℕ) : Int))).toNat, rfl, ?_, ?_,
    by decide, by decide⟩
  · rw [TextWithTab_eq]
    have : '\t'.toUInt8 = 9 := by decide
    rw [this]
  · by_cases h : text.length ≤ 15
    · simp [h]
    · have h' : 12 ≤ text.length := by omega
      simp [h, str_dots, List.length_take]
      omega

/-- C3 as stated fails: for the least `int` as `maxTab` and the eight-byte label
`abcdefgh` the subtraction `maxTab - len(text)/8` wraps around to the greatest `int`,
so the loop appends `2^63 - 1` tabs, where the claim has `max 0 (maxTab - 1) = 0` of
them. -/
theorem TextWithTab_tabs_counterexample :
    (str "abcdefgh").length = 8 ∧
    TextWithTab (str "abcdefgh") (-2 ^ 63)
      = str "abcdefgh" ++ List.replicate (2 ^ 63 - 1) '\t'.toUInt8 ∧
    ¬ TextWithTab (str "abcdefgh") (-2 ^ 63)
      = str "abcdefgh"
        ++ List.replicate
          (max 0 ((-2 ^ 63 : Int) - (((str "abcdefgh").length / 8 : ℕ) : Int))).toNat
          '\t'.toUInt8 := by
  have ht : '\t'.toUInt8 = 9 := by decide
  have hl : (str "abcdefgh").length = 8 := by decide
  have hw : (wrapInt64 ((-2 ^ 63 : Int) - ((8 / 8 : ℕ) : Int))).toNat = 2 ^ 63 - 1 := by
    unfold wrapInt64
    norm_num
    rfl
  have e : TextWithTab (str "abcdefgh") (-2 ^ 63)
      = str "abcdefgh" ++ List.replicate (2 ^ 63 - 1) (9 : UInt8) := by
    rw [TextWithTab_eq]
    simp only [hl, show (8 : ℕ) ≤ 15 by norm_num, if_true, hw]
  refine ⟨hl, by rw [e, ht], ?_⟩
  intro hc
  rw [e, ht, hl] at hc
  have hlen := congrArg List.length hc
  simp only [List.length_append, List.length_replicate] at hlen
  norm_num at hlen

/-- C3, amended: for every text and every `maxTab` that is an `int`, other than the
least `int` together with a label of 8 or more bytes, `TextWithTab text maxTab` is the
possibly truncated label `t` followed by exactly `max 0 (maxTab - floor (len t / 8))`
tab bytes and nothing else; with `maxTab = 2` a label of fewer than 8 bytes gets two
tabs and a label of 8 to 15 bytes gets one. -/
theorem TextWithTab_tabs (text : GoString) (maxTab : Int)
    (hint : -2 ^ 63 ≤ maxTab ∧ maxTab < 2 ^ 63)
    (hnw : -2 ^ 63 < maxTab ∨ text.length < 8) :
    ∃ t : GoString,
      t = (if text.length ≤ 15 then text else text.take 12 ++ str "...") ∧
      t.length ≤ 15 ∧
      TextWithTab text maxTab
        = t ++ List.replicate (max 0 (maxTab - ((t.length / 8 : ℕ) : Int))).toNat '\t'.toUInt8 ∧
      TextWithTab text 2
        = t ++ List.replicate (if t.length < 8 then 2 else 1) '\t'.toUInt8 := by
  have ht : '\t'.toUInt8 = 9 := by decide
  have hlen : (if text.length ≤ 15 then text else text.take 12 ++ str "...").length ≤ 15 := by
    by_cases h : text.length ≤ 15
    · simp [h]
    · simp [h, str_dots, List.length_take]
  have hshort : text.length < 8 →
      (if text.length ≤ 15 then text else text.take 12 ++ str "...").length < 8 := by
    intro h
    have h' : text.length ≤ 15 := by omega
    simpa [h'] using h
  have e1 := TextWithTab_eq text maxTab
  have e2 := TextWithTab_eq text 2
  generalize (if text.length ≤ 15 then text else text.take 12 ++ str "...") = t
    at hlen hshort e1 e2 ⊢
  have hdiv : t.length / 8 ≤ 1 := by omega
  have hzero : text.length < 8 → t.length / 8 = 0 := by
    intro h
    have := hshort h
    omega
  refine ⟨t, rfl, hlen, ?_, ?_⟩
  · rw [e1, ht, wrapInt64_of_range]
    · congr 2
      omega
    · rcases hnw with h | h
      · omega
      · have := hzero h
        omega
    · omega
  · rw [e2, ht, wrapInt64_of_range (by omega) (by omega)]
    congr 2
    split_ifs <;> omega

/-- Witness for the amended C3: a label of 16 bytes with `maxTab = 2`. -/
theorem TextWithTab_tabs_witness :
    ((-2 ^ 63 : Int) ≤ 2 ∧ (2 : Int) < 2 ^ 63) ∧
    ∃ t : GoString,
      t = (if (str "ExactlyFifteenCh").length ≤ 15 then str "ExactlyFifteenCh"
            else (str "ExactlyFifteenCh").take 12 ++ str "...") ∧
      t.length ≤ 15 ∧
      TextWithTab (str "ExactlyFifteenCh") 2
        = t ++ List.replicate (max 0 ((2 : Int) - ((t.length / 8 : ℕ) : Int))).toNat
            '\t'.toUInt8 ∧
      TextWithTab (str "ExactlyFifteenCh") 2
        = t ++ List.replicate (if t.length < 8 then 2 else 1) '\t'.toUInt8 :=
  ⟨by decide,
    TextWithTab_tabs (str "ExactlyFifteenCh") 2 (by decide) (Or.inl (by decide))⟩

/-! ## Theorems on the aggregation -/

/-- C4: in the aggregation loop of `GenCommitsInfo` the time map of a commit is
updated by the `switch` on its local hour, which lies in `0..23`; for an hour `h`
in `0..23` the switch increments exactly one bucket and leaves every other key as it
was: Night when `h < 6`, Morning when `6 ≤ h < 12`, Daytime when `12 ≤ h < 18`,
Evening when `18 ≤ h < 24`. Hours 0, 6, 11, 12, 17, 18, 23 go to Night, Morning,
Morning, Daytime, Daytime, Evening, Evening. -/
theorem timeSwitch_bucket (loc : Location) (repoName : GoString) (st : CommitStats) (d : Int)
    (timeMap : GoMap) (h : Int) (_h0 : 0 ≤ h) (h24 : h < 24) :
    (commitStep loc repoName st d).timeMap = timeSwitch st.timeMap (Hour loc d) ∧
    0 ≤ Hour loc d ∧ Hour loc d < 24 ∧
    (∃ b : GoString,
      b = (if h < 6 then str "Night" else if h < 12 then str "Morning"
            else if h < 18 then str "Daytime" else str "Evening") ∧
      timeSwitch timeMap h = mapIncr timeMap b ∧
      (∀ k, mapGet (timeSwitch timeMap h) k = mapGet timeMap k + (if b = k then 1 else 0)) ∧
      (timeList.map (mapGet (timeSwitch timeMap h))).sum
        = (timeList.map (mapGet timeMap)).sum + 1) ∧
    timeSwitch timeMap 0 = mapIncr timeMap (str "Night") ∧
    timeSwitch timeMap 6 = mapIncr timeMap (str "Morning") ∧
    timeSwitch timeMap 11 = mapIncr timeMap (str "Morning") ∧
    timeSwitch timeMap 12 = mapIncr timeMap (str "Daytime") ∧
    timeSwitch timeMap 17 = mapIncr timeMap (str "Daytime") ∧
    timeSwitch timeMap 18 = mapIncr timeMap (str "Evening") ∧
    timeSwitch timeMap 23 = mapIncr timeMap (str "Evening") := by
  refine ⟨rfl, (Hour_range loc d).1, (Hour_range loc d).2, ⟨_, rfl, timeSwitch_eq timeMap h h24,
    ?_, ?_⟩, rfl, rfl, rfl, rfl, rfl, rfl, rfl⟩
  · intro k
    rw [timeSwitch_eq timeMap h h24, mapGet_mapIncr]
  · rw [timeSwitch_eq timeMap h h24, sum_mapGet_mapIncr, timeList_count]
    simp

/-- Witness for C4 at hour 11. -/
theorem timeSwitch_bucket_witness :
    (0 : Int) ≤ 11 ∧ (11 : Int) < 24 ∧
    timeSwitch CommitStats.init.timeMap 11
      = [(str "Morning", 1), (str "Daytime", 0), (str "Evening", 0), (str "Night", 0)] :=
  ⟨by decide, by decide,
    ((timeSwitch_bucket (fun _ => 0) [] CommitStats.init 0 CommitStats.init.timeMap 11
      (by decide) (by decide)).2.2.2.2.2.2.1).trans (by decide)⟩

/-- C5: after the aggregation loop of `GenCommitsInfo` every commit is counted
exactly once in each of the three distributions: the four time-bucket counts sum to
`total`, the seven weekday counts (Monday to Sunday) sum to `total`, the counts of the
per-repository map (which has one entry per key) sum to `total`, and `total` is the
number of commits in the input. -/
theorem aggregate_sums (loc : Location) (infos : List RepositoryCommitInfo) :
    (timeList.map (mapGet (aggregate loc infos).timeMap)).sum = (aggregate loc infos).total ∧
    (weekdayList.map (mapGet (aggregate loc infos).weekdayMap)).sum
      = (aggregate loc infos).total ∧
    ((aggregate loc infos).repoMap.map Prod.snd).sum = (aggregate loc infos).total ∧
    ((aggregate loc infos).repoMap.map Prod.fst).Nodup ∧
    (aggregate loc infos).total = ((infos.map (fun rci => rci.History.length)).sum : ℕ) := by
  obtain ⟨h1, h2, h3, h4⟩ := foldl_repoStep_balanced loc infos _ init_balanced
  refine ⟨h1, h2, h3, h4, ?_⟩
  unfold aggregate
  rw [foldl_repoStep_total]
  simp [CommitStats.init]

/-- C6: the key named in each section header (`maxDay`, `maxRepo` in `GenCommitsInfo`,
`mostlyLangName` in `main`) is the running maximum, with strict `>`, of the events
`ev` in input order (one weekday name per commit, one repository name per commit, one
display language per repository): the map holds the number of occurrences of every
key, the final count of the key is at least the final count of every key, the key
reached that highest count first (whenever some key has that count after the first
`n` events, so has the key), the key is one of the events, and with no event at all
it is the empty string. -/
theorem running_maximum (loc : Location) (infos : List RepositoryCommitInfo)
    (edges : List RepositoryNode) :
    (∃ ev : List GoString,
      ev = infos.flatMap
        (fun rci => rci.History.map (fun d => WeekdayString (Weekday loc d))) ∧
      ((ev = [] ∧ (aggregate loc infos).maxDay = []) ∨ (aggregate loc infos).maxDay ∈ ev) ∧
      (∀ k, mapGet (aggregate loc infos).weekdayMap k = (ev.count k : Int)) ∧
      (∀ k, mapGet (aggregate loc infos).weekdayMap k ≤ mapGet (aggregate loc infos).weekdayMap (aggregate loc infos).maxDay) ∧
      (∀ n k, ev.count (aggregate loc infos).maxDay ≤ (ev.take n).count k →
        ev.count (aggregate loc infos).maxDay ≤ (ev.take n).count (aggregate loc infos).maxDay)) ∧
    (∃ ev : List GoString,
      ev = infos.flatMap (fun rci => rci.History.map (fun _ => rci.Name)) ∧
      ((ev = [] ∧ (aggregate loc infos).maxRepo = []) ∨ (aggregate loc infos).maxRepo ∈ ev) ∧
      (∀ k, mapGet (aggregate loc infos).repoMap k = (ev.count k : Int)) ∧
      (∀ k, mapGet (aggregate loc infos).repoMap k ≤ mapGet (aggregate loc infos).repoMap (aggregate loc infos).maxRepo) ∧
      (∀ n k, ev.count (aggregate loc infos).maxRepo ≤ (ev.take n).count k →
        ev.count (aggregate loc infos).maxRepo ≤ (ev.take n).count (aggregate loc infos).maxRepo)) ∧
    (∃ ev : List GoString,
      ev = edges.map (fun node =>
        if node.PrimaryLanguageName = [] then str "Other" else node.PrimaryLanguageName) ∧
      ((ev = [] ∧ (langLoop edges).mostlyLangName = []) ∨ (langLoop edges).mostlyLangName ∈ ev) ∧
      (∀ k, mapGet (langLoop edges).langMap k = (ev.count k : Int)) ∧
      (∀ k, mapGet (langLoop edges).langMap k ≤ mapGet (langLoop edges).langMap (langLoop edges).mostlyLangName) ∧
      (∀ n k, ev.count (langLoop edges).mostlyLangName ≤ (ev.take n).count k →
        ev.count (langLoop edges).mostlyLangName ≤ (ev.take n).count (langLoop edges).mostlyLangName)) := by
  have hW := (foldl_repoStep_maxStep loc infos CommitStats.init).1
  have hR := (foldl_repoStep_maxStep loc infos CommitStats.init).2
  have hL := (foldl_langStep_maxStep edges LangStats.init rfl).1
  have iW := (RunMax.init CommitStats.init.weekdayMap (by decide) CommitStats.init.maxDay).foldl
    (infos.flatMap (fun rci => rci.History.map (fun d => WeekdayString (Weekday loc d))))
  have iR := (RunMax.init CommitStats.init.repoMap (by decide) CommitStats.init.maxRepo).foldl
    (infos.flatMap (fun rci => rci.History.map (fun _ => rci.Name)))
  have iL := (RunMax.init LangStats.init.langMap (by decide) LangStats.init.mostlyLangName).foldl
    (edges.map (fun node =>
      if node.PrimaryLanguageName = [] then str "Other" else node.PrimaryLanguageName))
  rw [← hW] at iW
  rw [← hR] at iR
  rw [← hL] at iL
  simp only [List.nil_append] at iW iR iL
  refine ⟨⟨_, rfl, ?_⟩, ⟨_, rfl, ?_⟩, ⟨_, rfl, ?_⟩⟩
  · refine RunMax.facts iW ?_
    intro he
    have := hW
    rw [he] at this
    exact (congrArg Prod.snd this)
  · refine RunMax.facts iR ?_
    intro he
    have := hR
    rw [he] at this
    exact (congrArg Prod.snd this)
  · refine RunMax.facts iL ?_
    intro he
    have := hL
    rw [he] at this
    exact (congrArg Prod.snd this)

/-- C7 as stated fails: with no repository at all `total` is zero, and the report that
`GenCommitsInfo` returns shows `NaN%` on every line of the time-of-day and weekday
blocks; the text `0.00%` occurs nowhere in it. -/
theorem GenCommitsInfo_zero_total_counterexample :
    (aggregate (fun _ => 0) []).total = 0 ∧
    GenCommitsInfo amd64Conv (fun _ => 0) []
      = str ("\n**I'm an Early 🐤** \n```text\n"
          ++ "Morning\t\t0 commits\t-------------------------\tNaN%\n"
          ++ "Daytime\t\t0 commits\t-------------------------\tNaN%\n"
          ++ "Evening\t\t0 commits\t-------------------------\tNaN%\n"
          ++ "Night\t\t0 commits\t-------------------------\tNaN%\n"
          ++ "```\n\n**📅 I'm Most Productive on **\n```text\n"
          ++ "Monday\t\t0 commits\t-------------------------\tNaN%\n"
          ++ "Tuesday\t\t0 commits\t-------------------------\tNaN%\n"
          ++ "Wednesday\t0 commits\t-------------------------\tNaN%\n"
          ++ "Thursday\t0 commits\t-------------------------\tNaN%\n"
          ++ "Friday\t\t0 commits\t-------------------------\tNaN%\n"
          ++ "Saturday\t0 commits\t-------------------------\tNaN%\n"
          ++ "Sunday\t\t0 commits\t-------------------------\tNaN%\n"
          ++ "```\n\n**📽 I'm Most Contribute to **\n```text\n```\n\n") ∧
    ¬ List.IsInfix (str "0.00%") (GenCommitsInfo amd64Conv (fun _ => 0) []) := by
  refine ⟨by decide, by decide!, by decide!⟩

/-- C7, amended: when the input contains no commits (`total = 0`), `GenCommitsInfo`
still returns its report, in which every line of the time-of-day and weekday blocks
shows `0 commits` and renders the percentage as `NaN%` (the quotient `0 / 0` is NaN
and is printed as such); the bar of such a line is the bar of NaN, which is 25 `-`
wherever `int(NaN)` is not positive, as on amd64; the repository block is empty. -/
theorem GenCommitsInfo_zero_total (arch : F64 → Int) (loc : Location)
    (infos : List RepositoryCommitInfo) (content : GoString)
    (h : (aggregate loc infos).total = 0) :
    timeLoop arch (aggregate loc infos) content
      = content ++ (timeList.map (fun i =>
          TextWithTab i 2 ++ str "0 commits\t" ++ GenProgressBar arch F64.nan
            ++ str "\t" ++ str "NaN" ++ str "%\n")).flatten ∧
    weekdayLoop arch (aggregate loc infos) content
      = content ++ (weekdayList.map (fun i =>
          TextWithTab i 2 ++ str "0 commits\t" ++ GenProgressBar arch F64.nan
            ++ str "\t" ++ str "NaN" ++ str "%\n")).flatten ∧
    repoLoop arch (aggregate loc infos) content = content ∧
    (aggregate loc infos).maxDay = [] ∧ (aggregate loc infos).maxRepo = [] ∧
    GenProgressBar amd64Conv F64.nan = str "-------------------------" ∧
    (arch F64.nan ≤ 0 → GenProgressBar arch F64.nan = str "-------------------------") := by
  rw [aggregate_of_total_zero loc infos h]
  refine ⟨?_, ?_, ?_, rfl, rfl, by decide!, ?_⟩
  rotate_left 3
  · intro hn
    have hm : F64.mul F64.nan (F64.ofInt 25) = F64.nan := by
      cases hx : F64.ofInt 25 <;> rfl
    have hbar : GenProgressBar arch F64.nan
        = List.replicate (min (arch F64.nan).toNat 25) (35 : UInt8)
          ++ List.replicate (25 - min (arch F64.nan).toNat 25) (45 : UInt8) := by
      unfold GenProgressBar
      simp only [hm]
      exact bar_loop _ 25
    have h0 : (arch F64.nan).toNat = 0 := by omega
    rw [hbar, h0]
    decide
  · unfold timeLoop
    rw [foldl_append_map]
    congr 2
    apply List.map_congr_left
    intro i hi
    have h0 : mapGet CommitStats.init.timeMap i = 0 := mapGet_zero _ (by decide) i
    show commitLine arch i (mapGet CommitStats.init.timeMap i) 0 = _
    rw [h0, commitLine_zero]
  · unfold weekdayLoop
    rw [foldl_append_map]
    congr 2
    apply List.map_congr_left
    intro i hi
    have h0 : mapGet CommitStats.init.weekdayMap i = 0 := mapGet_zero _ (by decide) i
    show commitLine arch i (mapGet CommitStats.init.weekdayMap i) 0 = _
    rw [h0, commitLine_zero]
  · unfold repoLoop
    rw [foldl_append_filter]
    have : ∀ r, mapGet ({ CommitStats.init with
        repoList := infos.map (fun rci => rci.Name) } : CommitStats).repoMap r = 0 :=
      fun r => rfl
    simp [this]

/-- Witness for the amended C7: one repository without commits. -/
theorem GenCommitsInfo_zero_total_witness :
    (aggregate (fun _ => 0) [⟨str "repo", []⟩]).total = 0 ∧
    timeLoop amd64Conv (aggregate (fun _ => 0) [⟨str "repo", []⟩]) []
      = [] ++ (timeList.map (fun i =>
          TextWithTab i 2 ++ str "0 commits\t" ++ GenProgressBar amd64Conv F64.nan
            ++ str "\t" ++ str "NaN" ++ str "%\n")).flatten :=
  ⟨by decide,
    (GenCommitsInfo_zero_total amd64Conv (fun _ => 0) [⟨str "repo", []⟩] [] (by decide)).1⟩

/-- C8: for every list of issues `GenIssues` returns the blocks `[title](url)\n\n` of
the issues in reversed input order, followed by a single `\n`; for two issues `A`, `B`
the link of `B` comes before the link of `A`, and the empty list gives `\n`. -/
theorem GenIssues_reversed (issues : List IssueNode) (a b : IssueNode) :
    GenIssues issues
      = (issues.reverse.map (fun node =>
          str "[" ++ node.Title ++ str "](" ++ node.URL ++ str ")" ++ str "\n\n")).flatten
        ++ str "\n" ∧
    GenIssues [a, b]
      = (str "[" ++ b.Title ++ str "](" ++ b.URL ++ str ")" ++ str "\n\n")
        ++ (str "[" ++ a.Title ++ str "](" ++ a.URL ++ str ")" ++ str "\n\n") ++ str "\n" ∧
    GenIssues [] = str "\n" := by
  have key : ∀ l : List IssueNode, GenIssues l
      = (l.reverse.map (fun node =>
          str "[" ++ node.Title ++ str "](" ++ node.URL ++ str ")" ++ str "\n\n")).flatten
        ++ str "\n" := by
    intro l
    unfold GenIssues
    refine (foldl_prepend_map (fun node : IssueNode =>
      (str "[" ++ node.Title ++ str "](" ++ node.URL ++ str ")") ++ str "\n\n") l _).trans ?_
    simp
  refine ⟨key issues, ?_, rfl⟩
  rw [key]
  simp

/-- C9: the language aggregation of `main` increments exactly one bucket per
repository, the bucket of its primary language name or the bucket `Other` when that
name is empty. Hence every count is the number of repositories with that display
language, the counts of the map (one entry per language) sum to the number of
repositories, the `Other` count is the number of repositories whose primary language
is empty or literally `Other`, and `public + private` is the number of repositories. -/
theorem langLoop_counts (edges : List RepositoryNode) (st : LangStats) (node : RepositoryNode) :
    (langStep st node).langMap
      = mapIncr st.langMap
          (if node.PrimaryLanguageName = [] then str "Other" else node.PrimaryLanguageName) ∧
    (∀ k, mapGet (langStep st node).langMap k
      = mapGet st.langMap k
        + (if (if node.PrimaryLanguageName = [] then str "Other"
            else node.PrimaryLanguageName) = k then 1 else 0)) ∧
    (∀ k, mapGet (langLoop edges).langMap k
      = (edges.countP (fun node =>
          decide ((if node.PrimaryLanguageName = [] then str "Other"
            else node.PrimaryLanguageName) = k)) : ℕ)) ∧
    ((langLoop edges).langMap.map Prod.snd).sum = (edges.length : Int) ∧
    ((langLoop edges).langMap.map Prod.fst).Nodup ∧
    mapGet (langLoop edges).langMap (str "Other")
      = (edges.countP (fun node =>
          decide (node.PrimaryLanguageName = [] ∨ node.PrimaryLanguageName = str "Other")) : ℕ) ∧
    (langLoop edges).nPublic + (langLoop edges).nPrivate = (edges.length : Int) ∧
    (langLoop edges).nPrivate = (edges.countP (fun node => node.IsPrivate) : ℕ) := by
  obtain ⟨h1, h2, h3, h4⟩ := foldl_langStep_counts edges LangStats.init
  have hL := (foldl_langStep_maxStep edges LangStats.init rfl).1
  have iL := (RunMax.init LangStats.init.langMap (by decide) LangStats.init.mostlyLangName).foldl
    (edges.map (fun node =>
      if node.PrimaryLanguageName = [] then str "Other" else node.PrimaryLanguageName))
  rw [← hL] at iL
  have hcount : ∀ k, mapGet (langLoop edges).langMap k
      = (edges.countP (fun node =>
          decide ((if node.PrimaryLanguageName = [] then str "Other"
            else node.PrimaryLanguageName) = k)) : ℕ) := by
    intro k
    have := iL.1 k
    simp only [List.nil_append] at this
    rw [count_display] at this
    exact this
  refine ⟨rfl, fun k => mapGet_mapIncr _ _ _, hcount, ?_, h4 (by decide), ?_, ?_, ?_⟩
  · simpa [LangStats.init] using h1
  · rw [hcount]
    congr 1
    apply List.countP_congr
    intro node _
    by_cases he : node.PrimaryLanguageName = []
    · simp [he]
    · simp [he]
  · simpa [LangStats.init] using h2
  · simpa [LangStats.init] using h3

/-- C10: the lines of the "top repository" block of `GenCommitsInfo` are, in this
order, the lines of the input repository names sorted in increasing order with every
name whose commit count is exactly zero removed. Each line starts with the label
`TextWithTab(name, 2)`; a name has a line if and only if it is in the input and the
count under that name (the number of commits of the repositories so named) is not
zero; the names of the lines are in non-decreasing order. Repositories with 5, 3 and
0 commits give exactly two lines, those of the two non-zero ones in name order. -/
theorem repoLoop_lines (arch : F64 → Int) (loc : Location) (infos : List RepositoryCommitInfo)
    (content : GoString) :
    ∃ names : List GoString,
      names = (sortStrings (infos.map (fun rci => rci.Name))).filter
        (fun r => decide (¬ mapGet (aggregate loc infos).repoMap r = 0)) ∧
      repoLoop arch (aggregate loc infos) content
        = content ++ (names.map (fun r =>
            commitLine arch r (mapGet (aggregate loc infos).repoMap r)
              (aggregate loc infos).total)).flatten ∧
      (∀ (r : GoString) (count total : Int), ∃ rest : GoString,
        commitLine arch r count total = TextWithTab r 2 ++ rest) ∧
      (sortStrings (infos.map (fun rci => rci.Name))).Sorted strLe ∧
      (sortStrings (infos.map (fun rci => rci.Name))).Perm (infos.map (fun rci => rci.Name)) ∧
      names.Sorted strLe ∧
      (∀ r, r ∈ names ↔
        (r ∈ infos.map (fun rci => rci.Name) ∧ mapGet (aggregate loc infos).repoMap r ≠ 0)) ∧
      (∀ r, mapGet (aggregate loc infos).repoMap r
        = ((infos.flatMap (fun rci => rci.History.map (fun _ => rci.Name))).count r : ℕ)) ∧
      (sortStrings ([⟨str "zeta", [0, 1, 2, 3, 4]⟩, ⟨str "alpha", [5, 6, 7]⟩,
          (⟨str "mid", []⟩ : RepositoryCommitInfo)].map (fun rci => rci.Name))).filter
        (fun r => decide (¬ mapGet (aggregate loc
          [⟨str "zeta", [0, 1, 2, 3, 4]⟩, ⟨str "alpha", [5, 6, 7]⟩, ⟨str "mid", []⟩]).repoMap r
            = 0))
        = [str "alpha", str "zeta"] := by
  have hs := sortStrings_sorted (infos.map (fun rci => rci.Name))
  have hp := sortStrings_perm (infos.map (fun rci => rci.Name))
  refine ⟨_, rfl, ?_, ?_, hs, hp, ?_, ?_, aggregate_repoMap loc infos, ?_⟩
  · unfold repoLoop
    rw [foldl_append_filter, aggregate_repoList]
  · intro r count total
    refine ⟨TextWithTab (fmtInt count ++ str " commits") 2
      ++ GenProgressBar arch (F64.div (F64.ofInt count) (F64.ofInt total)) ++ str "\t"
      ++ fmtFloat2 (F64.mul (F64.div (F64.ofInt count) (F64.ofInt total)) (F64.ofInt 100))
      ++ str "%\n", ?_⟩
    unfold commitLine
    simp only [List.append_assoc]
  · exact hs.sublist (List.filter_sublist _)
  · intro r
    rw [List.mem_filter, hp.mem_iff]
    simp
  · have h1 : ∀ r, mapGet (aggregate loc
        [⟨str "zeta", [0, 1, 2, 3, 4]⟩, ⟨str "alpha", [5, 6, 7]⟩, ⟨str "mid", []⟩]).repoMap r
        = mapGet [(str "zeta", 5), (str "alpha", 3)] r := by
      intro r
      rw [aggregate_repoMap]
      by_cases hz : r = str "zeta"
      · subst hz; decide
      · by_cases ha : r = str "alpha"
        · subst ha; decide
        · have hz' : ¬ str "zeta" = r := fun e => hz e.symm
          have ha' : ¬ str "alpha" = r := fun e => ha e.symm
          simp [mapGet, List.count_cons, hz', ha']
    simp only [h1]
    decide

/-- C13: for every input with at least one commit (and a `total` that fits Go's `int`),
every fraction `float64(count) / float64(total)` that `GenCommitsInfo` passes to
`GenProgressBar`, for a count of the time map, of the weekday map or of the repository
map under any key, is a finite float64 `p` with `0 ≤ p ≤ 1`. -/
theorem fractions_in_unit_interval (loc : Location) (infos : List RepositoryCommitInfo)
    (label : GoString) (h1 : 1 ≤ (aggregate loc infos).total)
    (h63 : (aggregate loc infos).total < 2 ^ 63) :
    (∃ p : NNRat,
      F64.div (F64.ofInt (mapGet (aggregate loc infos).timeMap label))
        (F64.ofInt (aggregate loc infos).total) = F64.fin false p ∧
      0 ≤ (F64.fin false p).toRat ∧ (F64.fin false p).toRat ≤ 1) ∧
    (∃ p : NNRat,
      F64.div (F64.ofInt (mapGet (aggregate loc infos).weekdayMap label))
        (F64.ofInt (aggregate loc infos).total) = F64.fin false p ∧
      0 ≤ (F64.fin false p).toRat ∧ (F64.fin false p).toRat ≤ 1) ∧
    (∃ p : NNRat,
      F64.div (F64.ofInt (mapGet (aggregate loc infos).repoMap label))
        (F64.ofInt (aggregate loc infos).total) = F64.fin false p ∧
      0 ≤ (F64.fin false p).toRat ∧ (F64.fin false p).toRat ≤ 1) ∧
    (∀ (arch : F64 → Int) (count total : Int), ∃ pre post : GoString,
      commitLine arch label count total
        = pre ++ GenProgressBar arch (F64.div (F64.ofInt count) (F64.ofInt total)) ++ post) := by
  obtain ⟨⟨a1, a2⟩, ⟨b1, b2⟩, ⟨c1, c2⟩⟩ := aggregate_counts_le_total loc infos label
  obtain ⟨p1, e1, l1⟩ := F64.div_ofInt_le_one a1 a2 h1 h63
  obtain ⟨p2, e2, l2⟩ := F64.div_ofInt_le_one b1 b2 h1 h63
  obtain ⟨p3, e3, l3⟩ := F64.div_ofInt_le_one c1 c2 h1 h63
  refine ⟨⟨p1, e1, ?_, ?_⟩, ⟨p2, e2, ?_, ?_⟩, ⟨p3, e3, ?_, ?_⟩, ?_⟩
  · simp [F64.toRat]
  · simpa [F64.toRat] using l1
  · simp [F64.toRat]
  · simpa [F64.toRat] using l2
  · simp [F64.toRat]
  · simpa [F64.toRat] using l3
  · intro arch count total
    refine ⟨TextWithTab label 2 ++ TextWithTab (fmtInt count ++ str " commits") 2,
      str "\t" ++ fmtFloat2 (F64.mul (F64.div (F64.ofInt count) (F64.ofInt total))
        (F64.ofInt 100)) ++ str "%\n", ?_⟩
    unfold commitLine
    simp only [List.append_assoc]

/-- Witness for C13: one repository with two commits. -/
theorem fractions_in_unit_interval_witness :
    (1 : Int) ≤ (aggregate (fun _ => 0) [⟨str "repo", [0, 90000]⟩]).total ∧
    ∃ p : NNRat,
      F64.div (F64.ofInt (mapGet (aggregate (fun _ => 0) [⟨str "repo", [0, 90000]⟩]).timeMap
          (str "Night")))
        (F64.ofInt (aggregate (fun _ => 0) [⟨str "repo", [0, 90000]⟩]).total)
        = F64.fin false p ∧
      0 ≤ (F64.fin false p).toRat ∧ (F64.fin false p).toRat ≤ 1 :=
  ⟨by decide,
    (fractions_in_unit_interval (fun _ => 0) [⟨str "repo", [0, 90000]⟩] (str "Night")
      (by decide) (by decide)).1⟩

/-- C11 as stated fails. With `time.Local` UTC and `timeLocation` eight hours west of
it, on Monday the 4th of November 2024 at 02:00 UTC the function returns the instant
of 08:00 UTC of that day: a Monday midnight in `timeLocation`, but six hours in the
future, at a moment when it is still Sunday 18:00 there. With both locations a zone
that skips the midnight of Sunday the 10th of March 2024 (summer time starting at
00:00), on that Sunday at noon the function returns an instant that reads Sunday
23:00, not Monday 00:00. -/
theorem GetFirstDateOfWeek_counterexample :
    (GetFirstDateOfWeek (fun _ => 0) (fun _ => -28800) 1730685600 = 1730707200 ∧
      (1730685600 : Int) < GetFirstDateOfWeek (fun _ => 0) (fun _ => -28800) 1730685600 ∧
      Weekday (fun _ => 0) 1730685600 = 1 ∧
      Weekday (fun _ => -28800) 1730685600 = 0 ∧ Hour (fun _ => -28800) 1730685600 = 18) ∧
    (GetFirstDateOfWeek (fun t => if t < 1710046800 then -18000 else -14400)
        (fun t => if t < 1710046800 then -18000 else -14400) 1710086400 = 1709524800 ∧
      Weekday (fun t => if t < 1710046800 then -18000 else -14400) 1710086400 = 0 ∧
      Hour (fun t => if t < 1710046800 then -18000 else -14400) 1709524800 = 23 ∧
      Weekday (fun t => if t < 1710046800 then -18000 else -14400) 1709524800 = 0) := by
  refine ⟨⟨by decide, by decide, by decide, by decide, by decide⟩,
    ⟨by decide, by decide, by decide, by decide⟩⟩

/-- C11, amended: whatever the weekday on which `GetFirstDateOfWeek` runs, the day offset
it applies lies between `-6` and `0` (Monday gives 0, Tuesday -1, Wednesday -2, Thursday
-3, Friday -4, Saturday -5, Sunday -6) and leads from the current date, the date of
`now` as read in `time.Local`, to a Monday: the most recent one on or before that date,
never a later date. Provided the offset of `timeLocation` does not change within two
days of the two midnights involved (`c2` around today's, `c1` around that Monday's), the
instant returned is `00:00` of that Monday in `timeLocation`; it is then not after `now`
when `time.Local` has at `now` the offset `c2` as well (as when `timeLocation` is
`time.Local`) and the offset has not grown by more than a day since that Monday. -/
theorem GetFirstDateOfWeek_monday (localLoc timeLocation : Location) (now c1 c2 : Int)
    (hc1 : -86400 ≤ c1 ∧ c1 ≤ 86400) (hc2 : -86400 ≤ c2 ∧ c2 ≤ 86400)
    (h2 : ∀ t, (now + localLoc now) / 86400 * 86400 - 172800 ≤ t →
      t ≤ (now + localLoc now) / 86400 * 86400 + 172800 → timeLocation t = c2)
    (h1 : ∀ t,
      ((now + localLoc now) / 86400 + weekOffset (Weekday localLoc now)) * 86400 - 172800 ≤ t →
      t ≤ ((now + localLoc now) / 86400 + weekOffset (Weekday localLoc now)) * 86400 + 172800 →
      timeLocation t = c1) :
    -6 ≤ weekOffset (Weekday localLoc now) ∧ weekOffset (Weekday localLoc now) ≤ 0 ∧
    (weekOffset 1 = 0 ∧ weekOffset 2 = -1 ∧ weekOffset 3 = -2 ∧ weekOffset 4 = -3 ∧
      weekOffset 5 = -4 ∧ weekOffset 6 = -5 ∧ weekOffset 0 = -6) ∧
    ((now + localLoc now) / 86400 + weekOffset (Weekday localLoc now) + 4) % 7 = 1 ∧
    (now + localLoc now) / 86400 - 6
      ≤ (now + localLoc now) / 86400 + weekOffset (Weekday localLoc now) ∧
    (now + localLoc now) / 86400 + weekOffset (Weekday localLoc now)
      ≤ (now + localLoc now) / 86400 ∧
    GetFirstDateOfWeek localLoc timeLocation now
        + timeLocation (GetFirstDateOfWeek localLoc timeLocation now)
      = ((now + localLoc now) / 86400 + weekOffset (Weekday localLoc now)) * 86400 ∧
    Hour timeLocation (GetFirstDateOfWeek localLoc timeLocation now) = 0 ∧
    Weekday timeLocation (GetFirstDateOfWeek localLoc timeLocation now) = 1 ∧
    (localLoc now = c2 → c2 - c1 ≤ 86400 →
      GetFirstDateOfWeek localLoc timeLocation now ≤ now) := by
  obtain ⟨o1, o2, o3⟩ := weekOffset_range localLoc now
  obtain ⟨d1, d2⟩ := DateIn_stable timeLocation ((now + localLoc now) / 86400) 0 c2 hc2
    (by omega) h2
  have hcivil : DateIn timeLocation ((now + localLoc now) / 86400) 0
      + timeLocation (DateIn timeLocation ((now + localLoc now) / 86400) 0)
      = (now + localLoc now) / 86400 * 86400 := by
    rw [d2, d1]; ring
  have hres : GetFirstDateOfWeek localLoc timeLocation now
      = DateIn timeLocation
          ((now + localLoc now) / 86400 + weekOffset (Weekday localLoc now)) 0 := by
    unfold GetFirstDateOfWeek AddDate
    simp only [hcivil]
    congr 1 <;> omega
  obtain ⟨r1, r2⟩ := DateIn_stable timeLocation
    ((now + localLoc now) / 86400 + weekOffset (Weekday localLoc now)) 0 c1 hc1 (by omega) h1
  have hsum : GetFirstDateOfWeek localLoc timeLocation now
      + timeLocation (GetFirstDateOfWeek localLoc timeLocation now)
      = ((now + localLoc now) / 86400 + weekOffset (Weekday localLoc now)) * 86400 := by
    rw [hres, r2, r1]; ring
  refine ⟨o1, o2, by decide, o3, by omega, by omega, hsum, ?_, ?_, ?_⟩
  · unfold Hour
    rw [hsum]; omega
  · unfold Weekday
    rw [hsum]; omega
  · intro hloc hcc
    rw [hres, r1]
    rcases eq_or_lt_of_le o2 with h0 | hneg
    · have e1 := h1 ((now + localLoc now) / 86400 * 86400) (by omega) (by omega)
      have e2 := h2 ((now + localLoc now) / 86400 * 86400) (by omega) (by omega)
      have hc : c1 = c2 := by rw [← e1, e2]
      rw [h0, hloc] at *
      omega
    · rw [hloc] at *
      omega

/-- Witness for the amended C11: Wednesday the 6th of November 2024, 10:00 UTC, with
`time.Local` UTC and the report in a zone eight hours east of it. -/
theorem GetFirstDateOfWeek_monday_witness :
    weekOffset (Weekday (fun _ => 0) 1730887200) = -2 ∧
    GetFirstDateOfWeek (fun _ => 0) (fun _ => 28800) 1730887200 = 1730649600 ∧
    Hour (fun _ => 28800) (GetFirstDateOfWeek (fun _ => 0) (fun _ => 28800) 1730887200) = 0 ∧
    Weekday (fun _ => 28800) (GetFirstDateOfWeek (fun _ => 0) (fun _ => 28800) 1730887200)
      = 1 :=
  ⟨by decide, by decide,
    (GetFirstDateOfWeek_monday (fun _ => 0) (fun _ => 28800) 1730887200 28800 28800
      (by decide) (by decide) (fun _ _ _ => rfl) (fun _ _ _ => rfl)).2.2.2.2.2.2.2.1,
    (GetFirstDateOfWeek_monday (fun _ => 0) (fun _ => 28800) 1730887200 28800 28800
      (by decide) (by decide) (fun _ _ _ => rfl) (fun _ _ _ => rfl)).2.2.2.2.2.2.2.2.1⟩

/-- C12: for every list of WakaTime projects `GenWakaTimeStats` renders, between its
header and its footer, one line per project whose name is not exactly
`Unknown Project`, in the given order, and no line for a project of that name; the bar
of each line is `GenProgressBar(percent / 100)` of that project. -/
theorem GenWakaTimeStats_lines (arch : F64 → Int) (projects : List WakaProject) :
    ∃ shown : List WakaProject,
      shown = projects.filter (fun project => decide (¬ project.Name = str "Unknown Project")) ∧
      shown.Sublist projects ∧
      (∀ project, project ∈ shown ↔
        (project ∈ projects ∧ project.Name ≠ str "Unknown Project")) ∧
      GenWakaTimeStats arch projects
        = str "\n" ++ str "**📊 This Week I Spent My Time On**\n" ++ str "```text\n"
          ++ (shown.map (fun project =>
              TextWithTab project.Name 2 ++ TextWithTab project.Text 2
                ++ GenProgressBar arch (F64.div project.Percent (F64.ofInt 100)) ++ str "\t"
                ++ fmtFloat2 project.Percent ++ str "%\n")).flatten
          ++ str "```\n" ∧
      F64.ofInt 100 = F64.fin false 100 := by
  refine ⟨_, rfl, List.filter_sublist _, ?_, ?_, by decide!⟩
  · intro project
    simp [List.mem_filter]
  · unfold GenWakaTimeStats
    simp only [List.nil_append]
    rw [foldl_append_filter (fun project : WakaProject =>
      TextWithTab project.Name 2 ++ TextWithTab project.Text 2
        ++ GenProgressBar arch (F64.div project.Percent (F64.ofInt 100)) ++ str "\t"
        ++ fmtFloat2 project.Percent ++ str "%\n")
      (fun project : WakaProject => project.Name = str "Unknown Project")]

/-- C14 as stated fails: two repositories written in Go with a reported total count
of 1 make `GenMostly` pass the fraction `2 / 1 = 2` to `GenProgressBar`, and the line
shows `200.00%`. -/
theorem GenMostly_fraction_counterexample :
    F64.div
        (F64.ofInt (mapGet (langLoop [⟨str "a", str "Go", false⟩,
          ⟨str "b", str "Go", false⟩]).langMap (str "Go")))
        (F64.ofInt 1) = F64.fin false 2 ∧
    ¬ (F64.fin false 2).toRat ≤ 1 ∧
    GenMostly amd64Conv 1
        (langLoop [⟨str "a", str "Go", false⟩, ⟨str "b", str "Go", false⟩]).langMap (str "Go")
      = str ("\n**❤ I Mostly Code in Go**\n\n```text\n"
          ++ "Go\t\t2 repos\t\t#########################\t200.00%\n```\n") := by
  refine ⟨by decide!, by decide!, by decide!⟩

/-- C14, amended: for every repository list and every reported total repository count
that is at least the number of repositories in the list (and fits Go's `int`), every
fraction `float64(count) / float64(TotalCount)` that `GenMostly` passes to
`GenProgressBar`, for a language `k` of the sorted key list of the map built by `main`,
is a finite float64 `p` with `0 ≤ p ≤ 1`. -/
theorem GenMostly_fraction (edges : List RepositoryNode) (TotalCount : Int) (k : GoString)
    (hk : k ∈ sortStrings ((langLoop edges).langMap.map Prod.fst))
    (hlen : (edges.length : Int) ≤ TotalCount) (h63 : TotalCount < 2 ^ 63) :
    ∃ p : NNRat,
      F64.div (F64.ofInt (mapGet (langLoop edges).langMap k)) (F64.ofInt TotalCount)
        = F64.fin false p ∧
      0 ≤ (F64.fin false p).toRat ∧ (F64.fin false p).toRat ≤ 1 := by
  have hne : edges ≠ [] := by
    intro he
    subst he
    simp [langLoop, LangStats.init, sortStrings] at hk
  have hpos : 1 ≤ edges.length := by
    cases edges with
    | nil => exact absurd rfl hne
    | cons a l => simp
  have hcount := langLoop_mapGet edges k
  have hle : (edges.countP (fun node =>
      decide ((if node.PrimaryLanguageName = [] then str "Other"
        else node.PrimaryLanguageName) = k))) ≤ edges.length := List.countP_le_length _
  obtain ⟨p, e, l⟩ := F64.div_ofInt_le_one (c := mapGet (langLoop edges).langMap k)
    (t := TotalCount) (by rw [hcount]; positivity) (by rw [hcount]; omega) (by omega) h63
  refine ⟨p, e, ?_, ?_⟩
  · simp [F64.toRat]
  · simpa [F64.toRat] using l

/-- Witness for the amended C14: three repositories, two of them in Go, and a reported
total of three. -/
theorem GenMostly_fraction_witness :
    str "Go" ∈ sortStrings ((langLoop [⟨str "a", str "Go", false⟩, ⟨str "b", [], true⟩,
      ⟨str "c", str "Go", false⟩]).langMap.map Prod.fst) ∧
    ∃ p : NNRat,
      F64.div
          (F64.ofInt (mapGet (langLoop [⟨str "a", str "Go", false⟩, ⟨str "b", [], true⟩,
            ⟨str "c", str "Go", false⟩]).langMap (str "Go")))
          (F64.ofInt 3) = F64.fin false p ∧
      0 ≤ (F64.fin false p).toRat ∧ (F64.fin false p).toRat ≤ 1 :=
  ⟨by decide,
    GenMostly_fraction [⟨str "a", str "Go", false⟩, ⟨str "b", [], true⟩,
      ⟨str "c", str "Go", false⟩] 3 (str "Go") (by decide) (by decide) (by decide)⟩

/-- C15: with pairwise distinct repository names the commit counts shown on the lines
of the "top repository" block sum to `total`; with two repositories of the same name
they do not. For two repositories both named `docs`, with two commits and one commit,
`total` is 3 while the block has two lines, each showing the merged count 3 and
`100.00%`, so the counts shown sum to 6. -/
theorem repoLoop_duplicate_names :
    (∀ (loc : Location) (infos : List RepositoryCommitInfo),
      (infos.map (fun rci => rci.Name)).Nodup →
      (((sortStrings (aggregate loc infos).repoList).filter
          (fun r => decide (¬ mapGet (aggregate loc infos).repoMap r = 0))).map
          (mapGet (aggregate loc infos).repoMap)).sum
        = (aggregate loc infos).total) ∧
    (aggregate (fun _ => 0)
      [⟨str "docs", [1730714400, 1730714400]⟩, ⟨str "docs", [1730800800]⟩]).total = 3 ∧
    ((sortStrings (aggregate (fun _ => 0)
        [⟨str "docs", [1730714400, 1730714400]⟩, ⟨str "docs", [1730800800]⟩]).repoList).filter
        (fun r => decide (¬ mapGet (aggregate (fun _ => 0)
          [⟨str "docs", [1730714400, 1730714400]⟩, ⟨str "docs", [1730800800]⟩]).repoMap r
            = 0))).map
        (mapGet (aggregate (fun _ => 0)
          [⟨str "docs", [1730714400, 1730714400]⟩, ⟨str "docs", [1730800800]⟩]).repoMap)
      = [3, 3] ∧
    repoLoop amd64Conv (aggregate (fun _ => 0)
        [⟨str "docs", [1730714400, 1730714400]⟩, ⟨str "docs", [1730800800]⟩]) []
      = str ("docs\t\t3 commits\t#########################\t100.00%\n"
          ++ "docs\t\t3 commits\t#########################\t100.00%\n") := by
  refine ⟨fun loc infos hn => repo_counts_sum_of_nodup loc infos hn, by decide, by decide,
    by decide!⟩

/-- C16 as stated fails: on amd64 the fraction `2^63`, which is at least 1, gives 25
`-` bytes, because the product `2^63 * 25` does not fit an `int`; so does the fraction
`+Inf`. -/
theorem GenProgressBar_saturation_counterexample :
    1 ≤ (F64.fin false (2 ^ 63)).toRat ∧
    F64.mul (F64.fin false (2 ^ 63)) (F64.ofInt 25) = F64.fin false (25 * 2 ^ 63) ∧
    GenProgressBar amd64Conv (F64.fin false (2 ^ 63)) = str "-------------------------" ∧
    GenProgressBar amd64Conv (F64.inf false) = str "-------------------------" := by
  have hx : (((2 ^ 63 : NNRat) : NNRat) : ℚ) * ((25 : NNRat) : ℚ)
      = ((25 : ℕ) : ℚ) * 2 ^ (63 : ℤ) := by
    push_cast; norm_num
  have hj : F64.ulpExp (((25 : ℕ) : ℚ) * 2 ^ (63 : ℤ)) ≤ 63 :=
    F64.ulpExp_le_of_lt (by norm_num) (by positivity) (by norm_num)
  have hround : F64.roundMag (((25 : ℕ) : ℚ) * 2 ^ (63 : ℤ)) = ((25 : ℕ) : ℚ) * 2 ^ (63 : ℤ) :=
    F64.roundMag_grid_eq hj
  have hnn : (((25 : ℕ) : ℚ) * 2 ^ (63 : ℤ)).toNNRat = (25 * 2 ^ 63 : NNRat) := by
    ext
    rw [Rat.coe_toNNRat _ (by positivity)]
    push_cast; norm_num
  have hmul : F64.mul (F64.fin false (2 ^ 63)) (F64.ofInt 25) = F64.fin false (25 * 2 ^ 63) := by
    rw [F64.ofInt_25]
    unfold F64.mul F64.round
    simp only [Bool.xor_false]
    rw [hx, hround, hnn, if_neg (by norm_num)]
  have hfloor : ⌊(((25 * 2 ^ 63 : NNRat) : NNRat) : ℚ)⌋ = 25 * 2 ^ 63 := by
    have : (((25 * 2 ^ 63 : NNRat) : NNRat) : ℚ) = ((25 * 2 ^ 63 : ℤ) : ℚ) := by
      push_cast; norm_num
    rw [this, Int.floor_intCast]
  refine ⟨?_, hmul, ?_, by decide!⟩
  · simp only [F64.toRat, Bool.false_eq_true, if_false]
    push_cast; norm_num
  · have hbar : GenProgressBar amd64Conv (F64.fin false (2 ^ 63))
        = List.replicate (min (F64.toInt amd64Conv (F64.fin false (25 * 2 ^ 63))).toNat 25)
            (35 : UInt8)
          ++ List.replicate
            (25 - min (F64.toInt amd64Conv (F64.fin false (25 * 2 ^ 63))).toNat 25)
            (45 : UInt8) := by
      unfold GenProgressBar
      simp only [hmul]
      exact bar_loop _ 25
    have ht : F64.toInt amd64Conv (F64.fin false (25 * 2 ^ 63)) = -2 ^ 63 := by
      unfold F64.toInt
      simp only [Bool.false_eq_true, if_false, hfloor]
      rw [if_neg (by norm_num)]
      rfl
    rw [hbar, ht]
    decide

/-- C16, amended: `GenProgressBar` is total: for every float64 `f`, NaN and the
infinities included, the result has exactly 25 bytes, each `#` or `-`, with all `#`
before all `-`. It saturates as long as the product `f * 25` is finite and its
truncation fits an `int`: then every `f < 0` gives 25 `-` and every `f ≥ 1` gives 25
`#`. (Otherwise the filled count is the implementation-dependent result of the
conversion.) -/
theorem GenProgressBar_saturates (arch : F64 → Int) (f : F64) (neg : Bool) (mag p : NNRat)
    (hm : F64.mul (F64.fin neg mag) (F64.ofInt 25) = F64.fin neg p)
    (hr : -2 ^ 63 ≤ (F64.fin neg p).toRat ∧ (F64.fin neg p).toRat < 2 ^ 63) :
    (∃ k : ℕ, k ≤ 25 ∧
      GenProgressBar arch f
        = List.replicate k '#'.toUInt8 ++ List.replicate (25 - k) '-'.toUInt8) ∧
    (GenProgressBar arch f).length = 25 ∧
    ((F64.fin neg mag).toRat < 0 →
      GenProgressBar arch (F64.fin neg mag) = str "-------------------------") ∧
    (1 ≤ (F64.fin neg mag).toRat →
      GenProgressBar arch (F64.fin neg mag) = str "#########################") := by
  have hh : '#'.toUInt8 = 35 := by decide
  have hd : '-'.toUInt8 = 45 := by decide
  have hshape : ∀ g : F64, GenProgressBar arch g
      = List.replicate (min (F64.toInt arch (F64.mul g (F64.ofInt 25))).toNat 25) (35 : UInt8)
        ++ List.replicate (25 - min (F64.toInt arch (F64.mul g (F64.ofInt 25))).toNat 25)
            (45 : UInt8) := by
    intro g
    unfold GenProgressBar
    exact bar_loop _ 25
  have hcoe : ⌊(p : ℚ)⌋ = ((⌊p⌋₊ : ℕ) : Int) := (NNRat.coe_floor p).symm
  refine ⟨⟨_, Nat.min_le_right _ _, by rw [hshape f, hh, hd]⟩, ?_, ?_, ?_⟩
  · rw [hshape f]; simp
  · intro hlt
    cases neg with
    | false =>
      simp [F64.toRat] at hlt
    | true =>
      have hp63 : (p : ℚ) ≤ 2 ^ 63 := by
        have := hr.1
        simp [F64.toRat] at this
        linarith
      have hfl : ((⌊p⌋₊ : ℕ) : Int) ≤ 2 ^ 63 := by
        have h1 : ((⌊p⌋₊ : ℕ) : ℚ) ≤ (p : ℚ) := by
          rw [← NNRat.floor_coe]; exact Nat.floor_le p.coe_nonneg
        have h2 : ((⌊p⌋₊ : ℕ) : ℚ) ≤ ((2 ^ 63 : ℕ) : ℚ) := by push_cast; linarith
        have h3 : ⌊p⌋₊ ≤ 2 ^ 63 := by exact_mod_cast h2
        exact_mod_cast h3
      have ht : F64.toInt arch (F64.fin true p) = -((⌊p⌋₊ : ℕ) : Int) := by
        unfold F64.toInt
        simp only [hcoe, if_true]
        rw [if_pos (by constructor <;> omega)]
      rw [hshape, hm, ht]
      have : (-((⌊p⌋₊ : ℕ) : Int)).toNat = 0 := by omega
      rw [this]
      decide
  · intro hge
    cases neg with
    | true =>
      have h0 : (0 : ℚ) ≤ (mag : ℚ) := mag.coe_nonneg
      have hge' : (1 : ℚ) ≤ -(mag : ℚ) := by simpa [F64.toRat] using hge
      linarith
    | false =>
      have hmag : (1 : ℚ) ≤ (mag : ℚ) := by simpa [F64.toRat] using hge
      have hp63 : (p : ℚ) < 2 ^ 63 := by simpa [F64.toRat] using hr.2
      have hpval : (p : ℚ) = F64.roundMag ((mag : ℚ) * 25) := by
        have hval : F64.mul (F64.fin false mag) (F64.ofInt 25)
            = if (2 : ℚ) ^ 1024 ≤ F64.roundMag ((mag : ℚ) * 25) then F64.inf false
              else F64.fin false (F64.roundMag ((mag : ℚ) * 25)).toNNRat := by
          rw [F64.ofInt_25]
          simp [F64.mul, F64.round]
        rw [hval] at hm
        split_ifs at hm with hov
        have := F64.fin.inj hm
        rw [← this.2, Rat.coe_toNNRat _ (F64.roundMag_nonneg _)]
      have h25 : (25 : ℚ) ≤ (p : ℚ) := by
        rw [hpval]
        have hmono := F64.roundMag_mono (x := ((25 : ℕ) : ℚ)) (y := (mag : ℚ) * 25)
          (by norm_num) (by push_cast; linarith)
        rw [F64.roundMag_natCast (by norm_num)] at hmono
        exact_mod_cast hmono
      have hfl25 : 25 ≤ ⌊p⌋₊ := by
        rw [← NNRat.floor_coe]
        exact Nat.le_floor (by exact_mod_cast h25)
      have hfl63 : ((⌊p⌋₊ : ℕ) : Int) < 2 ^ 63 := by
        have h1 : ((⌊p⌋₊ : ℕ) : ℚ) ≤ (p : ℚ) := by
          rw [← NNRat.floor_coe]; exact Nat.floor_le p.coe_nonneg
        have h2 : ((⌊p⌋₊ : ℕ) : ℚ) < ((2 ^ 63 : ℕ) : ℚ) := by push_cast; linarith
        have h3 : ⌊p⌋₊ < 2 ^ 63 := by exact_mod_cast h2
        exact_mod_cast h3
      have ht : F64.toInt arch (F64.fin false p) = ((⌊p⌋₊ : ℕ) : Int) := by
        unfold F64.toInt
        simp only [hcoe, Bool.false_eq_true, if_false]
        rw [if_pos (by constructor <;> omega)]
      rw [hshape, hm, ht]
      have : min ((⌊p⌋₊ : ℕ) : Int).toNat 25 = 25 := by
        rw [Int.toNat_natCast]; omega
      rw [this]
      decide

/-- Witness for the amended C16: the fraction 3, whose product with 25 is 75. -/
theorem GenProgressBar_saturates_witness :
    F64.mul (F64.fin false 3) (F64.ofInt 25) = F64.fin false 75 ∧
    (1 : ℚ) ≤ (F64.fin false 3).toRat ∧
    GenProgressBar amd64Conv (F64.fin false 3) = str "#########################" :=
  ⟨by decide!, by decide!,
    (GenProgressBar_saturates amd64Conv F64.nan false 3 75 (by decide!)
      ⟨by decide!, by decide!⟩).2.2.2 (by decide!)⟩

end PrettyProfile
